import Mathlib

/-!
kamconfig: render / watch / reload orchestration.

A shallow embedding of `main.go` of CyCoreSystems/kamconfig.

* Go strings are `String`s; every string function works on the character list `String.data`.
* The Go standard library functions the program calls (`strings.TrimPrefix`, `path.Join`,
  `path.Clean`, `path.Ext`, `path.Dir`, `filepath.Walk`, `os.MkdirAll`, `os.Create`) are modelled
  after their documented behaviour on a Unix system.
* The destination file system is a map from resolved paths (component lists, from the root) to
  entries.  The process working directory is the root directory.
* A source layer is a read-only tree, listed in the order `filepath.Walk` visits it; writing to the
  destination does not change it (the source roots lie outside the destination root).
* External collaborators (template renderer, HTTP client, zip reader, reload RPC) are parameters.
-/

set_option autoImplicit false

namespace Kamconfig

/-! ## Errors -/

/-- Go `error` values: `errors.New` and `errors.Wrap`. -/
inductive Err where
  | new (msg : String)
  | wrap (cause : Err) (msg : String)
  deriving DecidableEq, Repr

/-- The error of a path component that should be a directory and is not. -/
def ENOTDIR : Err := Err.new "not a directory"

/-- The error of opening a directory for writing. -/
def EISDIR : Err := Err.new "is a directory"

/-- The error of a missing path. -/
def ENOENT : Err := Err.new "no such file or directory"

/-! ## Package `strings` -/

/-- Go `strings.HasPrefix`. -/
def hasPrefix (s pre : String) : Bool := pre.data.isPrefixOf s.data

/-- Go `strings.TrimPrefix`: `s` without the leading `pre`, or `s` itself. -/
def trimPrefix (s pre : String) : String :=
  if hasPrefix s pre then ⟨s.data.drop pre.data.length⟩ else s

/-- Go `strings.HasSuffix`. -/
def hasSuffix (s suf : String) : Bool := suf.data.isSuffixOf s.data

/-- Go `strings.TrimSuffix`: `s` without the trailing `suf`, or `s` itself. -/
def trimSuffix (s suf : String) : String :=
  if hasSuffix s suf then ⟨s.data.take (s.data.length - suf.data.length)⟩ else s

/-! ## Package `path` -/

/-- The elements of a path between its slashes (`"/a//b"` gives `["", "a", "", "b"]`). -/
def splitSlash : List Char → List (List Char)
  | [] => [[]]
  | c :: cs =>
    if c = '/' then [] :: splitSlash cs
    else match splitSlash cs with
      | [] => [[c]]
      | seg :: rest => (c :: seg) :: rest

/-- Elements joined with single slashes. -/
def joinSlash : List (List Char) → List Char
  | [] => []
  | [s] => s
  | s :: t :: rest => s ++ '/' :: joinSlash (t :: rest)

/-- One element of `path.Clean`'s scan.  `stack` holds the elements kept so far, last one first.
Empty and `.` elements are dropped; `..` removes the element before it, is dropped at the root of
a rooted path, and is kept at the start of a relative one. -/
def cleanStep (rooted : Bool) (stack : List (List Char)) (seg : List Char) : List (List Char) :=
  if seg = [] ∨ seg = ['.'] then stack
  else if seg = ['.', '.'] then
    match stack with
    | [] => if rooted then [] else [seg]
    | top :: rest =>
      if top = ['.', '.'] then (if rooted then stack else seg :: stack) else rest
  else seg :: stack

/-- The elements `path.Clean` keeps, in order. -/
def cleanSegs (rooted : Bool) (p : List Char) : List (List Char) :=
  ((splitSlash p).foldl (cleanStep rooted) []).reverse

/-- Go `path.Clean`. -/
def pathClean (p : String) : String :=
  if p.data = [] then "."
  else
    let rooted : Bool := p.data.head? = some '/'
    let body := joinSlash (cleanSegs rooted p.data)
    if rooted then ⟨'/' :: body⟩
    else if body = [] then "."
    else ⟨body⟩

/-- Go `path.Join` of two elements (`filepath.Join` is the same function on Unix). -/
def pathJoin (a b : String) : String :=
  if a ≠ "" then pathClean (a ++ "/" ++ b)
  else if b ≠ "" then pathClean b
  else ""

/-- The scan of `path.Ext`, from the last character backwards. -/
def extScan : List Char → List Char → List Char
  | [], _ => []
  | c :: cs, acc =>
    if c = '/' then []
    else if c = '.' then c :: acc
    else extScan cs (c :: acc)

/-- Go `path.Ext`: the suffix beginning at the final dot in the final element, else empty. -/
def pathExt (p : String) : String := ⟨extScan p.data.reverse []⟩

/-- Go `path.Dir`: all but the last element of the path, cleaned. -/
def pathDir (p : String) : String :=
  pathClean ⟨(p.data.reverse.dropWhile (fun c => c != '/')).reverse⟩

/-! ## The file system -/

/-- An entry of the file system. -/
inductive Entry where
  | file (data : String)
  | dir
  deriving DecidableEq, Repr

/-- The file system: resolved path to entry. -/
abbrev FS := List String → Option Entry

/-- The empty file system. -/
def FS.empty : FS := fun _ => none

/-- Path resolution by the operating system, from the root directory. -/
def resolve (p : String) : List String :=
  (cleanSegs true p.data).map String.mk

/-- The entry at a resolved path; the root is a directory. -/
def stat (fs : FS) (p : List String) : Option Entry :=
  if p = [] then some Entry.dir else fs p

/-- Whether an entry is a regular file. -/
def isFile : Option Entry → Bool
  | some (Entry.file _) => true
  | _ => false

/-- Go `os.MkdirAll`: fails when the path or an ancestor is a file, and then changes nothing;
otherwise the path and all its ancestors are directories afterwards. -/
def mkdirAll (path : String) (fs : FS) : Except Err FS :=
  if path = "" then Except.error ENOENT
  else
    let p := resolve path
    if p.inits.any (fun q => isFile (stat fs q)) then Except.error ENOTDIR
    else Except.ok (fun q => if q.isPrefixOf p then some Entry.dir else fs q)

/-- Go `os.Create`: the parent must be a directory and the path must not be one; the file is
created or truncated. -/
def create (path : String) (fs : FS) : Except Err FS :=
  if path = "" then Except.error ENOENT
  else if path.data.getLast? = some '/' then Except.error EISDIR
  else
    let p := resolve path
    match stat fs p.dropLast with
    | none => Except.error ENOENT
    | some (Entry.file _) => Except.error ENOTDIR
    | some Entry.dir =>
      match stat fs p with
      | some Entry.dir => Except.error EISDIR
      | _ => Except.ok (fun q => if q = p then some (Entry.file "") else fs q)

/-- Writing `data` to the file just created at `path`. -/
def writeFile (path : String) (data : String) (fs : FS) : FS :=
  fun q => if q = resolve path then some (Entry.file data) else fs q

/-! ## Source trees and `filepath.Walk` -/

mutual
/-- A node of a source layer. -/
inductive SrcNode where
  /-- a regular file that can be opened and read -/
  | file (data : String)
  /-- a non-directory entry that `os.Open` fails on -/
  | unreadable (e : Err)
  /-- a directory; its entries in the order `readDirNames` returns them (sorted by name) -/
  | dir (entries : SrcEntries)
  /-- an entry that `lstat` fails on -/
  | inaccessible (e : Err)
/-- The entries of a directory. -/
inductive SrcEntries where
  | nil
  | cons (name : String) (node : SrcNode) (rest : SrcEntries)
end

/-- What the walk function is told about an entry. -/
inductive Visit where
  /-- the `err` argument is set -/
  | failed (e : Err)
  /-- `info.IsDir()` -/
  | dir
  /-- a non-directory; the outcome of `os.Open` and reading it -/
  | file (opened : Except Err String)

mutual
/-- Go `filepath.Walk`, for a walk function that never returns `SkipDir`: entries are visited in
lexical order, a directory before its entries, and the first error ends the walk. -/
def walk {σ : Type} (walkFn : String → Visit → σ → Option Err × σ) (fn : String) :
    SrcNode → σ → Option Err × σ
  | SrcNode.file data, st => walkFn fn (Visit.file (Except.ok data)) st
  | SrcNode.unreadable e, st => walkFn fn (Visit.file (Except.error e)) st
  | SrcNode.inaccessible e, st => walkFn fn (Visit.failed e) st
  | SrcNode.dir entries, st =>
    match walkFn fn Visit.dir st with
    | (some e, st1) => (some e, st1)
    | (none, st1) => walkEntries walkFn fn entries st1
/-- The loop of `walk` over the names of a directory. -/
def walkEntries {σ : Type} (walkFn : String → Visit → σ → Option Err × σ) (dirFn : String) :
    SrcEntries → σ → Option Err × σ
  | SrcEntries.nil, st => (none, st)
  | SrcEntries.cons name node rest, st =>
    match walk walkFn (pathJoin dirFn name) node st with
    | (some e, st1) => (some e, st1)
    | (none, st1) => walkEntries walkFn dirFn rest st1
end

/-! ## Rendering -/

/-- The rendering collaborator `kubetemplate.Render`: the bytes it writes, and its error. -/
abbrev Renderer := String → String × Option Err

/-- The walk function of `renderDirectory`.  The state is the file system and `fileCount`. -/
def renderVisit (e : Renderer) (sourceRoot exportRoot : String) (fn : String) (v : Visit)
    (st : FS × Nat) : Option Err × (FS × Nat) :=
  match v with
  | Visit.failed err => (some (Err.wrap err ("failed to access file " ++ fn)), st)
  | Visit.dir =>
    let outFile := pathJoin exportRoot (trimPrefix fn sourceRoot)
    match mkdirAll outFile st.1 with
    | Except.error err => (some err, st)
    | Except.ok fs1 => (none, (fs1, st.2))
  | Visit.file opened =>
    let outFile := pathJoin exportRoot (trimPrefix fn sourceRoot)
    let isTemplate : Bool := pathExt fn = ".tmpl"
    let outFile := if isTemplate then trimSuffix outFile ".tmpl" else outFile
    match opened with
    | Except.error err =>
      (some (Err.wrap err ("failed to open template for reading: " ++ fn)), st)
    | Except.ok data =>
      match mkdirAll (pathDir outFile) st.1 with
      | Except.error err =>
        (some (Err.wrap err ("failed to create destination directory " ++ pathDir outFile)), st)
      | Except.ok fs1 =>
        match create outFile fs1 with
        | Except.error err =>
          (some (Err.wrap err ("failed to open file for writing: " ++ outFile)), (fs1, st.2))
        | Except.ok fs2 =>
          let out : String × Option Err := if isTemplate then e data else (data, none)
          match out.2 with
          | none => (none, (writeFile outFile out.1 fs2, st.2 + 1))
          | some err => (some err, (writeFile outFile out.1 fs2, st.2))

/-- Go `renderDirectory`, on the tree `src` found at `sourceRoot`. -/
def renderDirectory (e : Renderer) (sourceRoot exportRoot : String) (src : SrcNode) (fs : FS) :
    Option Err × FS :=
  match walk (renderVisit e sourceRoot exportRoot) sourceRoot src (fs, 0) with
  | (some err, st) => (some err, st.1)
  | (none, st) =>
    if st.2 < 1 then (some (Err.new "no files processed"), st.1)
    else (none, st.1)

/-- Go `Service`: the configuration of one run. -/
structure Service where
  KamailioRPCPort : String
  CoreRoot : String
  CustomRoot : String
  ProfileRoot : String
  ExportRoot : String

/-- The contents of the three source roots. -/
structure Layers where
  core : SrcNode
  profile : SrcNode
  custom : SrcNode

/-- Go `Service.render`. -/
def Service.render (s : Service) (e : Renderer) (l : Layers) (fs : FS) : Option Err × FS :=
  match renderDirectory e s.CoreRoot s.ExportRoot l.core fs with
  | (some err, fs1) => (some (Err.wrap err "failed to render core"), fs1)
  | (none, fs1) =>
    match renderDirectory e s.ProfileRoot s.ExportRoot l.profile fs1 with
    | (some err, fs2) => (some (Err.wrap err "failed to render profile"), fs2)
    | (none, fs2) =>
      match renderDirectory e s.CustomRoot s.ExportRoot l.custom fs2 with
      | (some err, fs3) => (some (Err.wrap err "failed to render initial configuration"), fs3)
      | (none, fs3) => (none, fs3)

/-! ## The watch loop -/

/-- What `Run` does, in order. -/
inductive Event where
  /-- a call of `s.render()` and whether it returned nil -/
  | render (ok : Bool)
  /-- `s.engine.FirstRenderComplete(true)` -/
  | firstRenderComplete
  /-- a value received from `renderChan` -/
  | recv (n : Option Err)
  /-- a call of `s.reload()` and whether it returned nil -/
  | reload (ok : Bool)
  /-- the deferred `s.engine.Close()` -/
  | close
  deriving DecidableEq, Repr

/-- How `Run` ends on a finite sequence of notifications: it returns an error, or it is blocked
receiving from the channel. -/
inductive RunResult where
  | returned (e : Err)
  | blocked
  deriving DecidableEq, Repr

/-- The collaborators of `Run` over a world state `W`: `render` is `s.render()` in the current
state of the sources (`Service.render` on the file-system part of the world), `invokeMethod` is
`binrpc.InvokeMethod`. -/
structure Collab (W : Type) where
  render : Service → W → Option Err × W
  invokeMethod : String → String → String → W → Option Err × W

/-- Go `Service.reload`. -/
def Service.reload {W : Type} (s : Service) (c : Collab W) (w : W) : Option Err × W :=
  c.invokeMethod "core.kill" "localhost" s.KamailioRPCPort w

/-- The `for` loop of `Run`, over the values the channel delivers. -/
def Service.watchLoop {W : Type} (s : Service) (c : Collab W) :
    List (Option Err) → W → List Event × RunResult × W
  | [], w => ([], RunResult.blocked, w)
  | some err :: _, w =>
    ([Event.recv (some err)], RunResult.returned (Err.wrap err "failure during watch"), w)
  | none :: rest, w =>
    match c.render s w with
    | (some err, w1) =>
      ([Event.recv none, Event.render false],
        RunResult.returned (Err.wrap err "failed to re-render configuration"), w1)
    | (none, w1) =>
      match s.reload c w1 with
      | (some err, w2) =>
        ([Event.recv none, Event.render true, Event.reload false],
          RunResult.returned (Err.wrap err "failed to kill kamailio"), w2)
      | (none, w2) =>
        let r := Service.watchLoop s c rest w2
        (Event.recv none :: Event.render true :: Event.reload true :: r.1, r.2)

/-- The deferred call at the return of `Run`. -/
def deferred : RunResult → List Event
  | RunResult.returned _ => [Event.close]
  | RunResult.blocked => []

/-- Go `Service.Run`, given the values the channel delivers. -/
def Service.Run {W : Type} (s : Service) (c : Collab W) (notifs : List (Option Err)) (w : W) :
    List Event × RunResult × W :=
  match c.render s w with
  | (some err, w1) =>
    ([Event.render false, Event.close],
      RunResult.returned (Err.wrap err "failed initial render"), w1)
  | (none, w1) =>
    let r := s.watchLoop c notifs w1
    (Event.render true :: Event.firstRenderComplete :: (r.1 ++ deferred r.2.1), r.2)

/-! ## The supervisor loop of `main` -/

/-- Go `maxShortDeaths`. -/
def maxShortDeaths : Nat := 10

/-- Go `minRuntime`: `time.Minute`, in nanoseconds. -/
def minRuntime : Int := 60 * 1000000000

/-- One completed `svc.Run()`: the error it returned and `time.Since(t)` in nanoseconds. -/
structure RunOutcome where
  err : Err
  elapsed : Int

/-- How the supervisor stands after the runs given: the process has exited with `code` after
`runs` runs, or the loop is about to start another run with the counter `shortDeaths`. -/
inductive MainResult where
  | exit (runs : Nat) (code : Nat)
  | running (shortDeaths : Nat)
  deriving DecidableEq, Repr

/-- The update of `shortDeaths` after a run. -/
def countRun (shortDeaths : Nat) (r : RunOutcome) : Nat :=
  if r.elapsed < minRuntime then shortDeaths + 1 else 0

/-- The `for shortDeaths < maxShortDeaths` loop of `main` and the `os.Exit(1)` after it;
`done` counts the runs completed so far. -/
def mainLoop : List RunOutcome → Nat → Nat → MainResult
  | [], shortDeaths, done =>
    if shortDeaths < maxShortDeaths then MainResult.running shortDeaths
    else MainResult.exit done 1
  | r :: rest, shortDeaths, done =>
    if shortDeaths < maxShortDeaths then mainLoop rest (countRun shortDeaths r) (done + 1)
    else MainResult.exit done 1

/-! ## Extraction of a source archive -/

/-- Go `http.Header`, by key. -/
abbrev Header := String → List String

/-- Go `Header.Set`. -/
def Header.set (h : Header) (key value : String) : Header :=
  fun k => if k = key then [value] else h k

/-- Go `Header.Add`. -/
def Header.add (h : Header) (key value : String) : Header :=
  fun k => if k = key then h k ++ [value] else h k

/-- Go `http.Request`, as far as `downloadSource` sets it. -/
structure Request where
  method : String
  url : String
  header : Header

/-- Go `http.Response`, as far as `downloadSource` reads it. -/
structure Response where
  StatusCode : Int
  Status : String
  ContentLength : Int
  body : String
  bodyErr : Option Err

/-- An entry of a `zip.Reader`. -/
structure ZipEntry where
  Name : String
  isDir : Bool
  openErr : Option Err
  data : String
  copyErr : Option Err

/-- The environment of the extractor: process environment and external collaborators. -/
structure Env where
  getenv : String → String
  /-- the base64 encoding used by `SetBasicAuth` -/
  base64 : String → String
  /-- the failure of `http.NewRequest` on a URL, if any -/
  newRequestErr : String → Option Err
  /-- `http.DefaultClient.Do` -/
  roundTrip : Request → Except Err Response
  /-- the name chosen by `ioutil.TempFile`, or its failure -/
  tempFile : Except Err String
  /-- the reading of an archive from its bytes -/
  readZip : String → Except Err (List ZipEntry)

/-- Go `Request.SetBasicAuth`. -/
def Request.SetBasicAuth (env : Env) (req : Request) (username password : String) : Request :=
  let value := "Basic " ++ env.base64 (username ++ ":" ++ password)
  { req with header := Header.set req.header "Authorization" value }

/-- The request `downloadSource` hands to the HTTP client. -/
def downloadRequest (env : Env) (uri : String) : Request :=
  let req : Request := { method := "GET", url := uri, header := fun _ => [] }
  let req := if env.getenv "URL_USERNAME" ≠ "" then
      req.SetBasicAuth env (env.getenv "URL_USERNAME") (env.getenv "URL_PASSWORD")
    else req
  if env.getenv "URL_AUTHORIZATION" ≠ "" then
    { req with header := Header.add req.header "Authorization" (env.getenv "URL_AUTHORIZATION") }
  else req

/-- Go `downloadSource`: the name of the downloaded file, the error, and the file system. -/
def downloadSource (env : Env) (uri : String) (fs : FS) : (String × Option Err) × FS :=
  match env.newRequestErr uri with
  | some err => (("", some (Err.wrap err ("failed to construct web request to " ++ uri))), fs)
  | none =>
    match env.roundTrip (downloadRequest env uri) with
    | Except.error err => (("", some err), fs)
    | Except.ok resp =>
      if resp.StatusCode < 200 ∨ resp.StatusCode > 299 then
        (("", some (Err.new ("request failed: " ++ resp.Status))), fs)
      else if resp.ContentLength < 1 then
        (("", some (Err.new "empty response")), fs)
      else
        match env.tempFile with
        | Except.error err =>
          (("", some (Err.wrap err "failed to create temporary file for download")), fs)
        | Except.ok name => ((name, resp.bodyErr), writeFile name resp.body fs)

/-- Go `zip.OpenReader`: the archive read from the file at `source`. -/
def openReader (env : Env) (source : String) (fs : FS) : Except Err (List ZipEntry) :=
  match stat fs (resolve source) with
  | some (Entry.file data) => env.readZip data
  | some Entry.dir => Except.error EISDIR
  | none => Except.error ENOENT

/-- The loop of `extractSource` over the entries of the archive. -/
def extractEntries (customRoot : String) : List ZipEntry → FS → Option Err × FS
  | [], fs => (none, fs)
  | f :: rest, fs =>
    match f.openErr with
    | some err => (some (Err.wrap err ("failed to read file " ++ f.Name)), fs)
    | none =>
      let dest := pathJoin customRoot f.Name
      if f.isDir then
        match mkdirAll dest fs with
        | Except.error err =>
          (some (Err.wrap err ("failed to create destination directory " ++ f.Name)), fs)
        | Except.ok fs1 => extractEntries customRoot rest fs1
      else
        match mkdirAll (pathDir dest) fs with
        | Except.error err =>
          (some (Err.wrap err ("failed to create destination directory " ++ pathDir dest)), fs)
        | Except.ok fs1 =>
          match create dest fs1 with
          | Except.error err => (some (Err.wrap err ("failed to create file " ++ dest)), fs1)
          | Except.ok fs2 =>
            match f.copyErr with
            | some err =>
              (some (Err.wrap err ("error writing file " ++ dest)), writeFile dest f.data fs2)
            | none => extractEntries customRoot rest (writeFile dest f.data fs2)

/-- Go `extractSource`. -/
def extractSource (env : Env) (source customRoot : String) (fs : FS) : Option Err × FS :=
  if source = "" then (none, fs)
  else if customRoot = "" then (some (Err.new "no destination directory"), fs)
  else
    let dl : (String × Option Err) × FS :=
      if hasPrefix source "http" then downloadSource env source fs else ((source, none), fs)
    match dl.1.2 with
    | some err => (some (Err.wrap err "failed to download source"), dl.2)
    | none =>
      match openReader env dl.1.1 dl.2 with
      | Except.error err => (some (Err.wrap err "failed to open source archive"), dl.2)
      | Except.ok entries => extractEntries customRoot entries dl.2


/-! ## Vocabulary of the statements -/

/-- The number of consecutive short runs ending with the last run of `l`. -/
def shortStreak (l : List RunOutcome) : Nat :=
  (l.reverse.takeWhile (fun r => decide (r.elapsed < minRuntime))).length

/-- The values received from the channel, in order. -/
def received : List Event → List (Option Err)
  | [] => []
  | Event.recv n :: rest => n :: received rest
  | Event.render _ :: rest => received rest
  | Event.firstRenderComplete :: rest => received rest
  | Event.reload _ :: rest => received rest
  | Event.close :: rest => received rest

/-- Collaborators that always succeed, over a world that counts: a render adds one, a reload
adds a hundred. -/
def countingCollab : Collab Nat where
  render := fun _ w => (none, w + 1)
  invokeMethod := fun _ _ _ w => (none, w + 100)

/-- The service `main` builds from its defaults. -/
def defaultService : Service :=
  ⟨"9998", "/core", "/custom", "/profile", "/config/kamailio"⟩

mutual
/-- The number of regular files in a source tree. -/
def fileNodes : SrcNode → Nat
  | SrcNode.file _ => 1
  | SrcNode.unreadable _ => 0
  | SrcNode.inaccessible _ => 0
  | SrcNode.dir entries => fileEntries entries
/-- The number of regular files below the entries of a directory. -/
def fileEntries : SrcEntries → Nat
  | SrcEntries.nil => 0
  | SrcEntries.cons _ node rest => fileNodes node + fileEntries rest
end

/-- An environment with a username, a password and an authorization header configured. -/
def envBoth : Env where
  getenv := fun k =>
    if k = "URL_USERNAME" then "alice"
    else if k = "URL_PASSWORD" then "secret"
    else if k = "URL_AUTHORIZATION" then "Bearer token"
    else ""
  base64 := fun s => s
  newRequestErr := fun _ => none
  roundTrip := fun _ => Except.ok ⟨200, "200 OK", 2, "PK", none⟩
  tempFile := Except.ok "/tmp/config-download1"
  readZip := fun _ => Except.ok []

/-- An environment whose server answers 404. -/
def envNotFound : Env where
  getenv := fun _ => ""
  base64 := fun s => s
  newRequestErr := fun _ => none
  roundTrip := fun _ => Except.ok ⟨404, "404 Not Found", 9, "not found", none⟩
  tempFile := Except.ok "/tmp/config-download1"
  readZip := fun _ => Except.ok []

/-- An environment whose archives hold the one file entry `../etc/evil.cfg`. -/
def envDotDot : Env where
  getenv := fun _ => ""
  base64 := fun s => s
  newRequestErr := fun _ => none
  roundTrip := fun _ => Except.error (Err.new "no network")
  tempFile := Except.ok "/tmp/config-download1"
  readZip := fun _ => Except.ok [⟨"../etc/evil.cfg", false, none, "evil", none⟩]

/-- A file system holding a local archive at `/source/custom.zip`. -/
def fsArchive : FS := fun q =>
  if q = ["source"] then some Entry.dir
  else if q = ["custom"] then some Entry.dir
  else if q = ["source", "custom.zip"] then some (Entry.file "PK")
  else none

/-- Every entry of `S` is in `T` with the same kind. -/
def KindLE (S T : FS) : Prop :=
  ∀ q, (stat S q = some Entry.dir → stat T q = some Entry.dir) ∧
    (isFile (stat S q) = true → isFile (stat T q) = true)

/-- Each entry of `T` is that of `S` or that of `F`. -/
def Between (T S F : FS) : Prop := ∀ q, T q = S q ∨ T q = F q

/-- What the final state `F` of a run is to the state `S1` after one of its steps that returned
`r`: the run went on from `S1`, or it ended there. -/
def Later (r : Option Err) (S1 F : FS) : Prop :=
  (r = none → KindLE S1 F) ∧ (r ≠ none → F = S1)

/-- A step on the file system and a counter that can be replayed on the final state of the run
it is part of, with the same outcome. -/
def Replayable (f : FS × Nat → Option Err × (FS × Nat)) : Prop :=
  (∀ S n r S1 n1, f (S, n) = (r, (S1, n1)) → KindLE S S1) ∧
  (∀ S n r S1 n1 F T, f (S, n) = (r, (S1, n1)) → Later r S1 F → Between T S F →
    ∃ T1, f (T, n) = (r, (T1, n1)) ∧ Between T1 S1 F)

/-- Two steps in sequence; an error of the first ends the run. -/
def seqStep {σ : Type} (f g : σ → Option Err × σ) : σ → Option Err × σ :=
  fun st =>
    match f st with
    | (some e, st1) => (some e, st1)
    | (none, st1) => g st1

/-- The step of the walk function on a directory: `os.MkdirAll(outFile)`. -/
def mkdirStep (outFile : String) : FS × Nat → Option Err × (FS × Nat) :=
  fun st =>
    match mkdirAll outFile st.1 with
    | Except.error err => (some err, st)
    | Except.ok fs1 => (none, (fs1, st.2))

/-- The step of the walk function on a file that was opened: the parent directory is made, the
file is created, `data` is written to it, and `rerr` is what the renderer or the copy returned. -/
def putStep (outFile data : String) (rerr : Option Err) :
    FS × Nat → Option Err × (FS × Nat) :=
  fun st =>
    match mkdirAll (pathDir outFile) st.1 with
    | Except.error err =>
      (some (Err.wrap err ("failed to create destination directory " ++ pathDir outFile)), st)
    | Except.ok fs1 =>
      match create outFile fs1 with
      | Except.error err =>
        (some (Err.wrap err ("failed to open file for writing: " ++ outFile)), (fs1, st.2))
      | Except.ok fs2 =>
        match rerr with
        | none => (none, (writeFile outFile data fs2, st.2 + 1))
        | some err => (some err, (writeFile outFile data fs2, st.2))

/-- The destination path the walk function computes for a file at `fn`. -/
def outFileOf (sourceRoot exportRoot fn : String) : String :=
  if pathExt fn = ".tmpl" then trimSuffix (pathJoin exportRoot (trimPrefix fn sourceRoot)) ".tmpl"
  else pathJoin exportRoot (trimPrefix fn sourceRoot)

/-- What is written for a file at `fn` holding `data`: the bytes and the error. -/
def outputOf (e : Renderer) (fn data : String) : String × Option Err :=
  if pathExt fn = ".tmpl" then e data else (data, none)

/-- A step on the file system that can be replayed on the final state of the run it is part of,
with the same outcome. -/
def ReplayableFS (g : FS → Option Err × FS) : Prop :=
  (∀ S r S1, g S = (r, S1) → KindLE S S1) ∧
  (∀ S r S1 F T, g S = (r, S1) → Later r S1 F → Between T S F →
    ∃ T1, g T = (r, T1) ∧ Between T1 S1 F)

/-- A path element a directory can hold: not empty, not `.` or `..`, without a slash. -/
def ValidSeg (s : List Char) : Prop :=
  s ≠ [] ∧ s ≠ ['.'] ∧ s ≠ ['.', '.'] ∧ '/' ∉ s

/-- The characters of the absolute path with the elements `cs`. -/
def absL (cs : List (List Char)) : List Char := '/' :: joinSlash cs

/-- The characters `/r₁/r₂…` that follow a path when the elements `rel` are appended to it. -/
def tailL : List (List Char) → List Char
  | [] => []
  | r :: rs => '/' :: r ++ tailL rs

/-- A file or directory name a directory can hold. -/
def validName (n : String) : Prop := ValidSeg n.data

instance (s : List Char) : Decidable (ValidSeg s) := by
  unfold ValidSeg; infer_instance

instance (n : String) : Decidable (validName n) := by
  unfold validName; infer_instance

/-- The clean absolute path with the elements `cs`; `absPath []` is the root. -/
def absPath (cs : List String) : String := ⟨absL (cs.map String.data)⟩

/-- What follows the source root in the name of an entry below it. -/
def relL (sc rel : List (List Char)) : List Char :=
  if sc = [] then joinSlash rel else tailL rel

/-- What precedes the last slash of an absolute path. -/
def preL (p : List (List Char)) : List Char := if p = [] then [] else absL p

/-- The last element of a path: what follows its last slash. -/
def lastElem (p : String) : String :=
  ⟨(p.data.reverse.takeWhile (fun c => c != '/')).reverse⟩

/-- The destination the specification gives the file at `sourceRoot ++ rel`: the export root
joined with `rel`, without the `.tmpl` that ends a template's name. -/
def destPath (sourceRoot exportRoot rel : String) : String :=
  if hasSuffix (lastElem (sourceRoot ++ rel)) ".tmpl" then
    trimSuffix (pathJoin exportRoot rel) ".tmpl"
  else pathJoin exportRoot rel

/-- The content the specification gives the destination of the file at `sourceRoot ++ rel`:
the renderer's output for a template, the source bytes otherwise. -/
def destData (e : Renderer) (sourceRoot rel data : String) : String :=
  if hasSuffix (lastElem (sourceRoot ++ rel)) ".tmpl" then (e data).1 else data

/-- A renderer that wraps the template in brackets. -/
def bracketRenderer : Renderer := fun s => ("<" ++ s ++ ">", none)

/-- The name of the destination of a source file: the name without a final `.tmpl`. -/
def destName (name : String) : String := trimSuffix name ".tmpl"

/-- The content of the destination of a source file: the renderer's output for a template, the
source bytes otherwise. -/
def layerData (e : Renderer) (name data : String) : String :=
  if hasSuffix name ".tmpl" then (e data).1 else data

mutual
/-- The files a layer node named `name` in the destination directory `dir` produces: resolved
destination path and content, in the order of the walk. -/
def nodeFiles (e : Renderer) (dir : List String) (name : String) :
    SrcNode → List (List String × String)
  | SrcNode.file data => [(dir ++ [destName name], layerData e name data)]
  | SrcNode.dir entries => entriesFiles e (dir ++ [name]) entries
  | SrcNode.unreadable _ => []
  | SrcNode.inaccessible _ => []
/-- The files the entries of a layer directory produce in the destination directory `dir`. -/
def entriesFiles (e : Renderer) (dir : List String) : SrcEntries → List (List String × String)
  | SrcEntries.nil => []
  | SrcEntries.cons name node rest => nodeFiles e dir name node ++ entriesFiles e dir rest
end

mutual
/-- The destination directories a layer node mirrors, in the order of the walk. -/
def nodeDirs (dir : List String) (name : String) : SrcNode → List (List String)
  | SrcNode.dir entries => (dir ++ [name]) :: entriesDirs (dir ++ [name]) entries
  | SrcNode.file _ => []
  | SrcNode.unreadable _ => []
  | SrcNode.inaccessible _ => []
/-- The destination directories the entries of a layer directory mirror. -/
def entriesDirs (dir : List String) : SrcEntries → List (List String)
  | SrcEntries.nil => []
  | SrcEntries.cons name node rest => nodeDirs dir name node ++ entriesDirs dir rest
end

mutual
/-- A layer node that renders without error: every entry can be read, every name and every
destination name is a valid name, and the renderer accepts every template. -/
def nodeSound (e : Renderer) (name : String) : SrcNode → Bool
  | SrcNode.file data =>
    decide (validName name) && decide (validName (destName name)) &&
      (!hasSuffix name ".tmpl" || decide ((e data).2 = none))
  | SrcNode.dir entries => decide (validName name) && entriesSound e entries
  | SrcNode.unreadable _ => false
  | SrcNode.inaccessible _ => false
/-- The entries of a layer directory all render without error. -/
def entriesSound (e : Renderer) : SrcEntries → Bool
  | SrcEntries.nil => true
  | SrcEntries.cons name node rest => nodeSound e name node && entriesSound e rest
end

/-- The destination directories of a layer: the export root and the mirrored directories. -/
def layerDirs (exportDir : List String) (entries : SrcEntries) : List (List String) :=
  exportDir :: entriesDirs exportDir entries

/-- The last content a list of produced files gives the path `q`. -/
def lastOutput (files : List (List String × String)) (q : List String) : Option String :=
  files.reverse.lookup q

/-- The content the three layers give the path `q`: that of the last layer, in the order base,
profile, custom, that produces it. -/
def layeredOutput (base profile custom : List (List String × String)) (q : List String) :
    Option String :=
  lastOutput custom q <|> lastOutput profile q <|> lastOutput base q

/-- The file system `fs` with the directories `dirs` (and their ancestors) made and the files
`files` written over it, the later file winning. -/
def overlay (dirs : List (List String)) (files : List (List String × String)) (fs : FS) : FS :=
  fun q =>
    match lastOutput files q with
    | some c => some (Entry.file c)
    | none => if dirs.any (fun d => q.isPrefixOf d) then some Entry.dir else fs q

/-- No path collides file-against-directory: the file system holds no file at or above a
destination directory and no directory at a destination file, and no destination file is at or
above a destination directory. -/
def Compatible (dirs : List (List String)) (files : List (List String × String)) (fs : FS) :
    Prop :=
  (∀ d ∈ dirs, ∀ q ∈ d.inits, isFile (stat fs q) = false) ∧
  (∀ f ∈ files, stat fs f.1 ≠ some Entry.dir) ∧
  (∀ f ∈ files, ∀ d ∈ dirs, f.1.isPrefixOf d = false)

instance (dirs : List (List String)) (files : List (List String × String)) (fs : FS) :
    Decidable (Compatible dirs files fs) := by
  unfold Compatible; infer_instance

/-- The base layer of the example: the files `a` and `b`. -/
def exampleBase : SrcEntries :=
  SrcEntries.cons "a" (SrcNode.file "a of base")
    (SrcEntries.cons "b" (SrcNode.file "b of base") SrcEntries.nil)

/-- The profile layer of the example: the file `b`. -/
def exampleProfile : SrcEntries :=
  SrcEntries.cons "b" (SrcNode.file "b of profile") SrcEntries.nil

/-- The custom layer of the example: the file `c`. -/
def exampleCustom : SrcEntries :=
  SrcEntries.cons "c" (SrcNode.file "c of custom") SrcEntries.nil

/-- The three layers of the example. -/
def exampleLayers : Layers :=
  ⟨SrcNode.dir exampleBase, SrcNode.dir exampleProfile, SrcNode.dir exampleCustom⟩

/-- A source tree that holds one empty directory and no file. -/
def onlyDirs : SrcNode :=
  SrcNode.dir (SrcEntries.cons "modules" (SrcNode.dir SrcEntries.nil) SrcEntries.nil)

/-- A layer whose only entry is a file named `.tmpl`. -/
def bareTmpl : SrcNode :=
  SrcNode.dir (SrcEntries.cons ".tmpl" (SrcNode.file "listen") SrcEntries.nil)

/-- The service `main` builds when `CUSTOM_DIR` is `./custom`. -/
def dotCustomService : Service :=
  ⟨"9998", "/core", "./custom", "/profile", "/config/kamailio"⟩

/-- A profile layer that holds the file `a.cfg` and the template `x.conf.tmpl`. -/
def profileTree : SrcNode :=
  SrcNode.dir (SrcEntries.cons "a.cfg" (SrcNode.file "alias") (SrcEntries.cons "x.conf.tmpl"
    (SrcNode.file "listen") SrcEntries.nil))

/-! ## Replaying a run on the file system it left -/

theorem KindLE.refl (S : FS) : KindLE S S := fun _ => ⟨id, id⟩

theorem KindLE.trans {S T U : FS} (h1 : KindLE S T) (h2 : KindLE T U) : KindLE S U :=
  fun q => ⟨fun h => (h2 q).1 ((h1 q).1 h), fun h => (h2 q).2 ((h1 q).2 h)⟩

theorem Later.kindLE {r : Option Err} {S1 F : FS} (h : Later r S1 F) : KindLE S1 F := by
  cases r with
  | none => exact h.1 rfl
  | some e => rw [h.2 (by simp)]; exact KindLE.refl _

theorem Between.eq_of_same {T S : FS} (h : Between T S S) : T = S := by
  funext q; rcases h q with h | h <;> exact h

theorem stat_of_ne_nil (fs : FS) {q : List String} (h : q ≠ []) : stat fs q = fs q := by
  simp [stat, h]

theorem Between.stat_cases {T S F : FS} (h : Between T S F) (q : List String) :
    stat T q = stat S q ∨ stat T q = stat F q := by
  by_cases hq : q = []
  · left; simp [stat, hq]
  · simp only [stat, hq, if_false]; exact h q

theorem mkdirAll_ok_iff (path : String) (S S1 : FS) :
    mkdirAll path S = Except.ok S1 ↔
      path ≠ "" ∧ (∀ q, q <+: resolve path → isFile (stat S q) = false) ∧
        S1 = fun q => if q.isPrefixOf (resolve path) then some Entry.dir else S q := by
  unfold mkdirAll
  by_cases hp : path = ""
  · simp [hp]
  · simp only [hp, if_false, ne_eq, not_false_eq_true, true_and]
    by_cases hc : (resolve path).inits.any (fun q => isFile (stat S q)) = true
    · simp only [hc, if_true]
      constructor
      · intro h; cases h
      · rintro ⟨hall, -⟩
        simp only [List.any_eq_true, List.mem_inits] at hc
        obtain ⟨q, hq, hf⟩ := hc
        rw [hall q hq] at hf; cases hf
    · simp only [hc]
      simp only [List.any_eq_true, List.mem_inits, not_exists, not_and, Bool.not_eq_true] at hc
      constructor
      · intro h
        injection h with h
        exact ⟨hc, h.symm⟩
      · rintro ⟨-, h⟩
        rw [h]; rfl

theorem mkdirAll_kindLE (path : String) (S S1 : FS) (h : mkdirAll path S = Except.ok S1) :
    KindLE S S1 := by
  obtain ⟨-, hall, rfl⟩ := (mkdirAll_ok_iff path S S1).1 h
  intro q
  by_cases hq : q = []
  · subst hq; simp [stat]
  · simp only [stat, hq, if_false]
    by_cases hpre : q.isPrefixOf (resolve path) = true
    · simp only [hpre, if_true, implies_true, true_and]
      intro hf
      have := hall q (List.isPrefixOf_iff_prefix.1 hpre)
      simp only [stat, hq, if_false] at this
      rw [this] at hf; cases hf
    · simp [hpre]

theorem mkdirAll_replay (path : String) (S S1 F T : FS) (h : mkdirAll path S = Except.ok S1)
    (hF : KindLE S1 F) (hT : Between T S F) :
    ∃ T1, mkdirAll path T = Except.ok T1 ∧ Between T1 S1 F := by
  obtain ⟨hp, hall, rfl⟩ := (mkdirAll_ok_iff path S S1).1 h
  refine ⟨_, (mkdirAll_ok_iff path T _).2 ⟨hp, ?_, rfl⟩, ?_⟩
  · intro q hq
    rcases hT.stat_cases q with h1 | h1
    · rw [h1]; exact hall q hq
    · rw [h1]
      have hd : stat F q = some Entry.dir := by
        apply (hF q).1
        by_cases hq0 : q = []
        · simp [stat, hq0]
        · simp [stat, hq0, List.isPrefixOf_iff_prefix.2 hq]
      rw [hd]; rfl
  · intro q
    by_cases hpre : q.isPrefixOf (resolve path) = true
    · left; simp [hpre]
    · simp only [hpre]
      exact hT q

theorem create_ok_iff (path : String) (S S1 : FS) :
    create path S = Except.ok S1 ↔
      path ≠ "" ∧ path.data.getLast? ≠ some '/' ∧
        stat S (resolve path).dropLast = some Entry.dir ∧
        stat S (resolve path) ≠ some Entry.dir ∧
        S1 = fun q => if q = resolve path then some (Entry.file "") else S q := by
  unfold create
  by_cases hp : path = ""
  · simp [hp]
  · by_cases hs : path.data.getLast? = some '/'
    · simp [hp, hs]
    · simp only [hp, hs, if_false, ne_eq, not_false_eq_true, true_and]
      rcases hpar : stat S (resolve path).dropLast with _ | ⟨d⟩ | _
      · simp
      · simp
      · simp only [true_and]
        rcases hself : stat S (resolve path) with _ | ⟨d⟩ | _
        · simp only [reduceCtorEq, not_false_eq_true, true_and]
          constructor
          · intro h; injection h with h; exact h.symm
          · intro h; rw [h]
        · simp only [Option.some.injEq, reduceCtorEq, not_false_eq_true, true_and]
          constructor
          · intro h; injection h with h; exact h.symm
          · intro h; rw [h]
        · simp

theorem resolve_ne_nil_of_create (path : String) (S S1 : FS)
    (h : create path S = Except.ok S1) : resolve path ≠ [] := by
  obtain ⟨-, -, -, hself, -⟩ := (create_ok_iff path S S1).1 h
  intro h0
  rw [h0] at hself
  simp [stat] at hself

theorem writeFile_create (path data : String) (S S1 : FS) (h : create path S = Except.ok S1) :
    writeFile path data S1 = fun q => if q = resolve path then some (Entry.file data) else S q := by
  obtain ⟨-, -, -, -, rfl⟩ := (create_ok_iff path S S1).1 h
  funext q
  by_cases hq : q = resolve path <;> simp [writeFile, hq]

theorem create_kindLE (path data : String) (S S1 : FS) (h : create path S = Except.ok S1) :
    KindLE S (writeFile path data S1) := by
  rw [writeFile_create path data S S1 h]
  have hne := resolve_ne_nil_of_create path S S1 h
  obtain ⟨-, -, -, hself, -⟩ := (create_ok_iff path S S1).1 h
  intro q
  by_cases hq0 : q = []
  · subst hq0; simp [stat]
  · simp only [stat, hq0, if_false]
    by_cases hq : q = resolve path
    · subst hq
      simp only [stat, hq0, if_false] at hself
      simp only [if_true]
      exact ⟨fun h => absurd h hself, fun _ => rfl⟩
    · simp [hq]

theorem create_replay (path data : String) (S S1 F T : FS) (h : create path S = Except.ok S1)
    (hF : KindLE (writeFile path data S1) F) (hT : Between T S F) :
    ∃ T1, create path T = Except.ok T1 ∧
      Between (writeFile path data T1) (writeFile path data S1) F := by
  have hSF : KindLE S F := (create_kindLE path data S S1 h).trans hF
  have hne := resolve_ne_nil_of_create path S S1 h
  obtain ⟨hp, hs, hpar, hself, hS1⟩ := (create_ok_iff path S S1).1 h
  have hT1 : create path T = Except.ok
      (fun q => if q = resolve path then some (Entry.file "") else T q) := by
    refine (create_ok_iff path T _).2 ⟨hp, hs, ?_, ?_, rfl⟩
    · rcases hT.stat_cases (resolve path).dropLast with h1 | h1
      · rw [h1]; exact hpar
      · rw [h1]; exact (hSF _).1 hpar
    · rcases hT.stat_cases (resolve path) with h1 | h1
      · rw [h1]; exact hself
      · rw [h1]
        have hfile : isFile (stat F (resolve path)) = true := by
          apply (hF _).2
          simp [stat, hne, writeFile, isFile]
        intro hd
        rw [hd] at hfile; cases hfile
  refine ⟨_, hT1, ?_⟩
  rw [writeFile_create path data T _ hT1, writeFile_create path data S S1 h]
  intro q
  by_cases hq : q = resolve path
  · left; simp [hq]
  · simp only [hq, if_false]
    exact hT q

/-! ## The steps of the walk -/

theorem renderVisit_dir_eq (e : Renderer) (sr er fn : String) :
    renderVisit e sr er fn Visit.dir = mkdirStep (pathJoin er (trimPrefix fn sr)) := rfl

theorem renderVisit_file_eq (e : Renderer) (sr er fn data : String) :
    renderVisit e sr er fn (Visit.file (Except.ok data)) =
      putStep (outFileOf sr er fn) (outputOf e fn data).1 (outputOf e fn data).2 := by
  funext st
  unfold renderVisit putStep outFileOf outputOf
  by_cases h : pathExt fn = ".tmpl" <;> simp [h]

theorem Replayable.seq {f g : FS × Nat → Option Err × (FS × Nat)} (hf : Replayable f)
    (hg : Replayable g) : Replayable (seqStep f g) := by
  constructor
  · intro S n r S1 n1 h
    unfold seqStep at h
    rcases hfs : f (S, n) with ⟨_ | e, ⟨S2, n2⟩⟩
    · rw [hfs] at h
      exact (hf.1 _ _ _ _ _ hfs).trans (hg.1 _ _ _ _ _ h)
    · rw [hfs] at h
      simp only [Prod.mk.injEq] at h
      obtain ⟨-, rfl, -⟩ := h
      exact hf.1 _ _ _ _ _ hfs
  · intro S n r S1 n1 F T h hF hT
    unfold seqStep at h ⊢
    rcases hfs : f (S, n) with ⟨_ | e, ⟨S2, n2⟩⟩
    · rw [hfs] at h
      simp only at h
      have hF2 : Later none S2 F :=
        ⟨fun _ => (hg.1 _ _ _ _ _ h).trans hF.kindLE, fun hh => absurd rfl hh⟩
      obtain ⟨T2, hT2, hB2⟩ := hf.2 _ _ _ _ _ F T hfs hF2 hT
      obtain ⟨T1, hT1, hB1⟩ := hg.2 _ _ _ _ _ F T2 h hF hB2
      exact ⟨T1, by rw [hT2]; exact hT1, hB1⟩
    · rw [hfs] at h
      simp only [Prod.mk.injEq] at h
      obtain ⟨rfl, rfl, rfl⟩ := h
      obtain ⟨T2, hT2, hB2⟩ := hf.2 _ _ _ _ _ F T hfs hF hT
      exact ⟨T2, by rw [hT2], hB2⟩

theorem Replayable.fail (err : Err) :
    Replayable (fun st => (some err, st)) := by
  constructor
  · intro S n r S1 n1 h
    simp only [Prod.mk.injEq] at h
    obtain ⟨-, rfl, -⟩ := h
    exact KindLE.refl _
  · intro S n r S1 n1 F T h hF hT
    simp only [Prod.mk.injEq] at h
    obtain ⟨rfl, rfl, rfl⟩ := h
    have hFS := hF.2 (by simp)
    subst hFS
    rw [hT.eq_of_same]
    exact ⟨_, rfl, fun q => Or.inl rfl⟩

theorem Replayable.skip : Replayable (fun st => (none, st)) := by
  constructor
  · intro S n r S1 n1 h
    simp only [Prod.mk.injEq] at h
    obtain ⟨-, rfl, -⟩ := h
    exact KindLE.refl _
  · intro S n r S1 n1 F T h hF hT
    simp only [Prod.mk.injEq] at h
    obtain ⟨rfl, rfl, rfl⟩ := h
    exact ⟨T, rfl, hT⟩

theorem mkdirStep_replayable (outFile : String) : Replayable (mkdirStep outFile) := by
  constructor
  · intro S n r S1 n1 h
    unfold mkdirStep at h
    rcases hm : mkdirAll outFile S with err | fs1
    · simp only [hm, Prod.mk.injEq] at h
      obtain ⟨-, rfl, -⟩ := h
      exact KindLE.refl _
    · simp only [hm, Prod.mk.injEq] at h
      obtain ⟨-, rfl, -⟩ := h
      exact mkdirAll_kindLE _ _ _ hm
  · intro S n r S1 n1 F T h hF hT
    unfold mkdirStep at h ⊢
    rcases hm : mkdirAll outFile S with err | fs1
    · simp only [hm, Prod.mk.injEq] at h
      obtain ⟨rfl, rfl, rfl⟩ := h
      have hFS := hF.2 (by simp)
      subst hFS
      simp only [hT.eq_of_same, hm]
      exact ⟨_, rfl, fun q => Or.inl rfl⟩
    · simp only [hm, Prod.mk.injEq] at h
      obtain ⟨rfl, rfl, rfl⟩ := h
      obtain ⟨T1, hT1, hB⟩ := mkdirAll_replay _ _ _ F T hm hF.kindLE hT
      simp only [hT1]
      exact ⟨T1, rfl, hB⟩

theorem putStep_replayable (outFile data : String) (rerr : Option Err) :
    Replayable (putStep outFile data rerr) := by
  constructor
  · intro S n r S1 n1 h
    unfold putStep at h
    rcases hm : mkdirAll (pathDir outFile) S with err | fs1
    · simp only [hm, Prod.mk.injEq] at h
      obtain ⟨-, rfl, -⟩ := h
      exact KindLE.refl _
    · rcases hc : create outFile fs1 with err | fs2
      · simp only [hm, hc, Prod.mk.injEq] at h
        obtain ⟨-, rfl, -⟩ := h
        exact mkdirAll_kindLE _ _ _ hm
      · have hk := (mkdirAll_kindLE _ _ _ hm).trans (create_kindLE _ data _ _ hc)
        cases rerr with
        | none =>
          simp only [hm, hc, Prod.mk.injEq] at h
          obtain ⟨-, rfl, -⟩ := h
          exact hk
        | some err =>
          simp only [hm, hc, Prod.mk.injEq] at h
          obtain ⟨-, rfl, -⟩ := h
          exact hk
  · intro S n r S1 n1 F T h hF hT
    unfold putStep at h ⊢
    rcases hm : mkdirAll (pathDir outFile) S with err | fs1
    · simp only [hm, Prod.mk.injEq] at h
      obtain ⟨rfl, rfl, rfl⟩ := h
      have hFS := hF.2 (by simp)
      subst hFS
      simp only [hT.eq_of_same, hm]
      exact ⟨_, rfl, fun q => Or.inl rfl⟩
    · rcases hc : create outFile fs1 with err | fs2
      · simp only [hm, hc, Prod.mk.injEq] at h
        obtain ⟨rfl, rfl, rfl⟩ := h
        have hFS := hF.2 (by simp)
        subst hFS
        obtain ⟨T1, hT1, hB⟩ := mkdirAll_replay _ _ _ _ T hm (KindLE.refl _) hT
        simp only [hT1, hB.eq_of_same, hc]
        exact ⟨_, rfl, fun q => Or.inl rfl⟩
      · have hk := create_kindLE _ data _ _ hc
        have hW : KindLE (writeFile outFile data fs2) F ∧ n1 = (if rerr = none then n + 1 else n)
            ∧ r = rerr ∧ S1 = writeFile outFile data fs2 := by
          cases rerr with
          | none =>
            simp only [hm, hc, Prod.mk.injEq] at h
            obtain ⟨rfl, rfl, rfl⟩ := h
            exact ⟨hF.kindLE, by simp, rfl, rfl⟩
          | some err =>
            simp only [hm, hc, Prod.mk.injEq] at h
            obtain ⟨rfl, rfl, rfl⟩ := h
            exact ⟨hF.kindLE, by simp, rfl, rfl⟩
        obtain ⟨hW, rfl, rfl, rfl⟩ := hW
        obtain ⟨T1, hT1, hB⟩ := mkdirAll_replay _ _ _ F T hm (hk.trans hW) hT
        obtain ⟨T2, hT2, hB2⟩ := create_replay _ data _ _ F T1 hc hW hB
        simp only [hT1, hT2]
        cases r with
        | none => exact ⟨_, rfl, hB2⟩
        | some err => exact ⟨_, rfl, hB2⟩

theorem renderVisit_replayable (e : Renderer) (sr er fn : String) (v : Visit) :
    Replayable (renderVisit e sr er fn v) := by
  cases v with
  | failed err => exact Replayable.fail _
  | dir => rw [renderVisit_dir_eq]; exact mkdirStep_replayable _
  | file opened =>
    cases opened with
    | error err => exact Replayable.fail _
    | ok data => rw [renderVisit_file_eq]; exact putStep_replayable _ _ _

theorem walk_dir_eq {σ : Type} (walkFn : String → Visit → σ → Option Err × σ) (fn : String)
    (entries : SrcEntries) :
    walk walkFn fn (SrcNode.dir entries) =
      seqStep (walkFn fn Visit.dir) (walkEntries walkFn fn entries) := by
  funext st
  simp only [walk, seqStep]

theorem walkEntries_cons_eq {σ : Type} (walkFn : String → Visit → σ → Option Err × σ)
    (dirFn name : String) (node : SrcNode) (rest : SrcEntries) :
    walkEntries walkFn dirFn (SrcEntries.cons name node rest) =
      seqStep (walk walkFn (pathJoin dirFn name) node) (walkEntries walkFn dirFn rest) := by
  funext st
  simp only [walkEntries, seqStep]

mutual
theorem walk_replayable (walkFn : String → Visit → FS × Nat → Option Err × (FS × Nat))
    (hfn : ∀ fn v, Replayable (walkFn fn v)) :
    ∀ (node : SrcNode) (fn : String), Replayable (walk walkFn fn node)
  | SrcNode.file data, fn => by
    have : walk walkFn fn (SrcNode.file data) = walkFn fn (Visit.file (Except.ok data)) := by
      funext st; simp only [walk]
    rw [this]; exact hfn _ _
  | SrcNode.unreadable err, fn => by
    have : walk walkFn fn (SrcNode.unreadable err) = walkFn fn (Visit.file (Except.error err)) := by
      funext st; simp only [walk]
    rw [this]; exact hfn _ _
  | SrcNode.inaccessible err, fn => by
    have : walk walkFn fn (SrcNode.inaccessible err) = walkFn fn (Visit.failed err) := by
      funext st; simp only [walk]
    rw [this]; exact hfn _ _
  | SrcNode.dir entries, fn => by
    rw [walk_dir_eq]
    exact (hfn _ _).seq (walkEntries_replayable walkFn hfn entries fn)
theorem walkEntries_replayable (walkFn : String → Visit → FS × Nat → Option Err × (FS × Nat))
    (hfn : ∀ fn v, Replayable (walkFn fn v)) :
    ∀ (entries : SrcEntries) (dirFn : String), Replayable (walkEntries walkFn dirFn entries)
  | SrcEntries.nil, dirFn => by
    have : walkEntries walkFn dirFn SrcEntries.nil = fun st => (none, st) := by
      funext st; simp only [walkEntries]
    rw [this]; exact Replayable.skip
  | SrcEntries.cons name node rest, dirFn => by
    rw [walkEntries_cons_eq]
    exact (walk_replayable walkFn hfn node _).seq (walkEntries_replayable walkFn hfn rest dirFn)
end

/-! ## Idempotence of the render pipeline -/

theorem renderDirectory_replayable (e : Renderer) (sr er : String) (src : SrcNode) :
    ReplayableFS (renderDirectory e sr er src) := by
  have hw := walk_replayable (renderVisit e sr er) (renderVisit_replayable e sr er) src sr
  constructor
  · intro S r S1 h
    unfold renderDirectory at h
    rcases hwalk : walk (renderVisit e sr er) sr src (S, 0) with ⟨_ | err, ⟨S2, n2⟩⟩
    · rw [hwalk] at h
      have hk := hw.1 _ _ _ _ _ hwalk
      simp only at h
      split at h <;>
      · simp only [Prod.mk.injEq] at h
        obtain ⟨-, rfl⟩ := h
        exact hk
    · rw [hwalk] at h
      simp only [Prod.mk.injEq] at h
      obtain ⟨-, rfl⟩ := h
      exact hw.1 _ _ _ _ _ hwalk
  · intro S r S1 F T h hF hT
    unfold renderDirectory at h ⊢
    rcases hwalk : walk (renderVisit e sr er) sr src (S, 0) with ⟨_ | err, ⟨S2, n2⟩⟩
    · rw [hwalk] at h
      simp only at h
      have hS : S1 = S2 := by
        split at h <;>
        · simp only [Prod.mk.injEq] at h
          exact h.2.symm
      subst hS
      obtain ⟨T1, hT1, hB⟩ := hw.2 _ _ _ _ _ F T hwalk
        ⟨fun _ => hF.kindLE, fun hh => absurd rfl hh⟩ hT
      rw [hT1]
      simp only
      refine ⟨T1, ?_, hB⟩
      by_cases hn : n2 < 1
      · simp only [hn, if_true, Prod.mk.injEq] at h
        simp [hn, ← h.1]
      · simp only [hn, if_false, Prod.mk.injEq] at h
        simp [hn, ← h.1]
    · rw [hwalk] at h
      simp only [Prod.mk.injEq] at h
      obtain ⟨rfl, rfl⟩ := h
      obtain ⟨T1, hT1, hB⟩ := hw.2 _ _ _ _ _ F T hwalk hF hT
      rw [hT1]
      exact ⟨T1, rfl, hB⟩

theorem render_replayable (s : Service) (e : Renderer) (l : Layers) :
    ReplayableFS (s.render e l) := by
  have h1 := renderDirectory_replayable e s.CoreRoot s.ExportRoot l.core
  have h2 := renderDirectory_replayable e s.ProfileRoot s.ExportRoot l.profile
  have h3 := renderDirectory_replayable e s.CustomRoot s.ExportRoot l.custom
  constructor
  · intro S r S1 h
    unfold Service.render at h
    rcases hr1 : renderDirectory e s.CoreRoot s.ExportRoot l.core S with ⟨_ | e1, fs1⟩
    · rcases hr2 : renderDirectory e s.ProfileRoot s.ExportRoot l.profile fs1 with ⟨_ | e2, fs2⟩
      · rcases hr3 : renderDirectory e s.CustomRoot s.ExportRoot l.custom fs2 with ⟨_ | e3, fs3⟩
        · simp only [hr1, hr2, hr3, Prod.mk.injEq] at h
          obtain ⟨-, rfl⟩ := h
          exact ((h1.1 _ _ _ hr1).trans (h2.1 _ _ _ hr2)).trans (h3.1 _ _ _ hr3)
        · simp only [hr1, hr2, hr3, Prod.mk.injEq] at h
          obtain ⟨-, rfl⟩ := h
          exact ((h1.1 _ _ _ hr1).trans (h2.1 _ _ _ hr2)).trans (h3.1 _ _ _ hr3)
      · simp only [hr1, hr2, Prod.mk.injEq] at h
        obtain ⟨-, rfl⟩ := h
        exact (h1.1 _ _ _ hr1).trans (h2.1 _ _ _ hr2)
    · simp only [hr1, Prod.mk.injEq] at h
      obtain ⟨-, rfl⟩ := h
      exact h1.1 _ _ _ hr1
  · intro S r S1 F T h hF hT
    unfold Service.render at h ⊢
    rcases hr1 : renderDirectory e s.CoreRoot s.ExportRoot l.core S with ⟨_ | e1, fs1⟩
    · rcases hr2 : renderDirectory e s.ProfileRoot s.ExportRoot l.profile fs1 with ⟨_ | e2, fs2⟩
      · rcases hr3 : renderDirectory e s.CustomRoot s.ExportRoot l.custom fs2 with ⟨_ | e3, fs3⟩
        · simp only [hr1, hr2, hr3, Prod.mk.injEq] at h
          obtain ⟨rfl, rfl⟩ := h
          have hk3 : KindLE fs2 F := (h3.1 _ _ _ hr3).trans hF.kindLE
          have hk2 : KindLE fs1 F := (h2.1 _ _ _ hr2).trans hk3
          obtain ⟨T1, hT1, hB1⟩ := h1.2 _ _ _ F T hr1
            ⟨fun _ => hk2, fun hh => absurd rfl hh⟩ hT
          obtain ⟨T2, hT2, hB2⟩ := h2.2 _ _ _ F T1 hr2
            ⟨fun _ => hk3, fun hh => absurd rfl hh⟩ hB1
          obtain ⟨T3, hT3, hB3⟩ := h3.2 _ _ _ F T2 hr3 hF hB2
          simp only [hT1, hT2, hT3]
          exact ⟨T3, rfl, hB3⟩
        · simp only [hr1, hr2, hr3, Prod.mk.injEq] at h
          obtain ⟨rfl, rfl⟩ := h
          have hF3 : Later (some e3) _ F := ⟨fun hh => (by cases hh), fun _ => hF.2 (by simp)⟩
          have hk3 : KindLE fs2 F := (h3.1 _ _ _ hr3).trans hF.kindLE
          have hk2 : KindLE fs1 F := (h2.1 _ _ _ hr2).trans hk3
          obtain ⟨T1, hT1, hB1⟩ := h1.2 _ _ _ F T hr1
            ⟨fun _ => hk2, fun hh => absurd rfl hh⟩ hT
          obtain ⟨T2, hT2, hB2⟩ := h2.2 _ _ _ F T1 hr2
            ⟨fun _ => hk3, fun hh => absurd rfl hh⟩ hB1
          obtain ⟨T3, hT3, hB3⟩ := h3.2 _ _ _ F T2 hr3 hF3 hB2
          simp only [hT1, hT2, hT3]
          exact ⟨T3, rfl, hB3⟩
      · simp only [hr1, hr2, Prod.mk.injEq] at h
        obtain ⟨rfl, rfl⟩ := h
        have hF2 : Later (some e2) _ F := ⟨fun hh => (by cases hh), fun _ => hF.2 (by simp)⟩
        have hk2 : KindLE fs1 F := (h2.1 _ _ _ hr2).trans hF.kindLE
        obtain ⟨T1, hT1, hB1⟩ := h1.2 _ _ _ F T hr1
          ⟨fun _ => hk2, fun hh => absurd rfl hh⟩ hT
        obtain ⟨T2, hT2, hB2⟩ := h2.2 _ _ _ F T1 hr2 hF2 hB1
        simp only [hT1, hT2]
        exact ⟨T2, rfl, hB2⟩
    · simp only [hr1, Prod.mk.injEq] at h
      obtain ⟨rfl, rfl⟩ := h
      have hF1 : Later (some e1) _ F := ⟨fun hh => (by cases hh), fun _ => hF.2 (by simp)⟩
      obtain ⟨T1, hT1, hB1⟩ := h1.2 _ _ _ F T hr1 hF1 hT
      simp only [hT1]
      exact ⟨T1, rfl, hB1⟩

/-- Claim C7 (idempotence of the render pipeline).  For all source layers, every renderer and
every initial file system, running `Service.render` again on the file system it left, with the
sources unchanged, returns the same result and leaves the same file system. -/
theorem render_idempotent (s : Service) (e : Renderer) (l : Layers) (fs : FS) :
    s.render e l (s.render e l fs).2 = s.render e l fs := by
  rcases h : s.render e l fs with ⟨r, F⟩
  obtain ⟨T1, hT1, hB⟩ := (render_replayable s e l).2 fs r F F F h
    ⟨fun _ => KindLE.refl _, fun _ => rfl⟩ (fun q => Or.inr rfl)
  rw [hT1, hB.eq_of_same]

/-! ## Clean absolute paths -/

theorem splitSlash_ne_nil (s : List Char) : splitSlash s ≠ [] := by
  cases s with
  | nil => simp [splitSlash]
  | cons c cs =>
    unfold splitSlash
    by_cases h : c = '/'
    · simp [h]
    · simp only [h, if_false]
      split <;> simp

theorem splitSlash_of_no_slash (s : List Char) (h : '/' ∉ s) : splitSlash s = [s] := by
  induction s with
  | nil => rfl
  | cons c cs ih =>
    simp only [List.mem_cons, not_or] at h
    have hc : c ≠ '/' := fun hh => h.1 hh.symm
    simp [splitSlash, hc, ih h.2]

theorem splitSlash_append_slash (a b : List Char) :
    splitSlash (a ++ '/' :: b) = splitSlash a ++ splitSlash b := by
  induction a with
  | nil => simp [splitSlash]
  | cons c cs ih =>
    by_cases hc : c = '/'
    · simp [splitSlash, hc, ih]
    · have e1 : ∀ t, splitSlash (c :: t) =
          match splitSlash t with
          | [] => [[c]]
          | seg :: rest => (c :: seg) :: rest := by
        intro t; simp [splitSlash, hc]
      rw [List.cons_append, e1, e1, ih]
      rcases hs : splitSlash cs with _ | ⟨seg, rest⟩
      · exact absurd hs (splitSlash_ne_nil cs)
      · simp

theorem joinSlash_cons_cons (s t : List Char) (rest : List (List Char)) :
    joinSlash (s :: t :: rest) = s ++ '/' :: joinSlash (t :: rest) := rfl

theorem joinSlash_append_singleton (cs : List (List Char)) (n : List Char) (h : cs ≠ []) :
    joinSlash (cs ++ [n]) = joinSlash cs ++ '/' :: n := by
  induction cs with
  | nil => exact absurd rfl h
  | cons c rest ih =>
    cases rest with
    | nil => simp [joinSlash]
    | cons d rest' =>
      simp only [List.cons_append, joinSlash_cons_cons]
      have := ih (by simp)
      simp only [List.cons_append] at this
      rw [this]; simp

theorem splitSlash_joinSlash (cs : List (List Char)) (h : cs ≠ [])
    (hs : ∀ c ∈ cs, '/' ∉ c) : splitSlash (joinSlash cs) = cs := by
  induction cs with
  | nil => exact absurd rfl h
  | cons c rest ih =>
    cases rest with
    | nil => simpa [joinSlash] using splitSlash_of_no_slash c (hs c (by simp))
    | cons d rest' =>
      rw [joinSlash_cons_cons, splitSlash_append_slash,
        splitSlash_of_no_slash c (hs c (by simp)), ih (by simp)
          (fun x hx => hs x (List.mem_cons_of_mem _ hx))]
      rfl

theorem cleanStep_empty (r : Bool) (st : List (List Char)) : cleanStep r st [] = st := by
  simp [cleanStep]

theorem cleanStep_valid (r : Bool) (st : List (List Char)) (s : List Char) (h : ValidSeg s) :
    cleanStep r st s = s :: st := by
  obtain ⟨h1, h2, h3, -⟩ := h
  simp [cleanStep, h1, h2, h3]

theorem foldl_cleanStep (r : Bool) (segs : List (List Char))
    (h : ∀ s ∈ segs, s = [] ∨ ValidSeg s) :
    ∀ st, segs.foldl (cleanStep r) st = (segs.filter (fun s => s ≠ [])).reverse ++ st := by
  induction segs with
  | nil => intro st; simp
  | cons s rest ih =>
    intro st
    have ih' := ih (fun x hx => h x (List.mem_cons_of_mem _ hx))
    rcases h s (by simp) with hs | hs
    · subst hs
      simp [cleanStep_empty, ih']
    · have hne : s ≠ [] := hs.1
      simp [cleanStep_valid r st s hs, ih', hne]

theorem cleanSegs_of_segs (r : Bool) (p : List Char)
    (h : ∀ s ∈ splitSlash p, s = [] ∨ ValidSeg s) :
    cleanSegs r p = (splitSlash p).filter (fun s => s ≠ []) := by
  unfold cleanSegs
  rw [foldl_cleanStep r _ h]
  simp

theorem splitSlash_absL (cs : List (List Char)) (hs : ∀ c ∈ cs, ValidSeg c) :
    splitSlash (absL cs) = [] :: (if cs = [] then [[]] else cs) := by
  unfold absL
  rw [show ('/' :: joinSlash cs) = [] ++ '/' :: joinSlash cs from rfl, splitSlash_append_slash]
  by_cases h : cs = []
  · subst h; simp [splitSlash, joinSlash]
  · rw [splitSlash_joinSlash cs h (fun c hc => (hs c hc).2.2.2)]
    simp [h, splitSlash]

theorem filter_valid (cs : List (List Char)) (hs : ∀ c ∈ cs, ValidSeg c) :
    cs.filter (fun s => s ≠ []) = cs := by
  apply List.filter_eq_self.2
  intro c hc
  simpa using (hs c hc).1

/-- The core fact on cleaning: a rooted path whose elements are valid or empty is cleaned to
the absolute path of its valid elements. -/
theorem pathClean_of_segs (p : List Char) (rest : List Char) (hp : p = '/' :: rest)
    (h : ∀ s ∈ splitSlash p, s = [] ∨ ValidSeg s) :
    pathClean ⟨p⟩ = ⟨absL ((splitSlash p).filter (fun s => s ≠ []))⟩ := by
  unfold pathClean
  subst hp
  simp only [List.cons_ne_nil, if_false, List.head?_cons, decide_True, if_true]
  rw [cleanSegs_of_segs true _ h]
  rfl

theorem resolve_of_segs (p : List Char) (h : ∀ s ∈ splitSlash p, s = [] ∨ ValidSeg s) :
    resolve ⟨p⟩ = ((splitSlash p).filter (fun s => s ≠ [])).map String.mk := by
  unfold resolve
  rw [cleanSegs_of_segs true _ h]

theorem joinSlash_cons (c : List Char) (rel : List (List Char)) :
    joinSlash (c :: rel) = c ++ tailL rel := by
  induction rel generalizing c with
  | nil => simp [joinSlash, tailL]
  | cons r rs ih => rw [joinSlash_cons_cons, ih r]; simp [tailL]

theorem joinSlash_append (cs rel : List (List Char)) (h : cs ≠ []) :
    joinSlash (cs ++ rel) = joinSlash cs ++ tailL rel := by
  induction cs with
  | nil => exact absurd rfl h
  | cons c rest ih =>
    cases rest with
    | nil => simpa [joinSlash] using joinSlash_cons c rel
    | cons d rest' =>
      rw [List.cons_append, List.cons_append, joinSlash_cons_cons, joinSlash_cons_cons]
      have := ih (by simp)
      rw [List.cons_append] at this
      rw [this]; simp

theorem splitSlash_append_tailL (x : List Char) (rel : List (List Char))
    (hs : ∀ c ∈ rel, ValidSeg c) : splitSlash (x ++ tailL rel) = splitSlash x ++ rel := by
  induction rel generalizing x with
  | nil => simp [tailL]
  | cons r rs ih =>
    have h1 : x ++ tailL (r :: rs) = (x ++ '/' :: r) ++ tailL rs := by simp [tailL]
    rw [h1, ih _ (fun c hc => hs c (List.mem_cons_of_mem _ hc)), splitSlash_append_slash,
      splitSlash_of_no_slash r (hs r (by simp)).2.2.2]
    simp

theorem valid_or_of_mem_append {a b : List (List Char)} (ha : ∀ s ∈ a, s = [] ∨ ValidSeg s)
    (hb : ∀ s ∈ b, s = [] ∨ ValidSeg s) : ∀ s ∈ a ++ b, s = [] ∨ ValidSeg s := by
  intro s hs
  rcases List.mem_append.1 hs with h | h
  · exact ha s h
  · exact hb s h

theorem valid_or_absL (cs : List (List Char)) (hs : ∀ c ∈ cs, ValidSeg c) :
    ∀ s ∈ splitSlash (absL cs), s = [] ∨ ValidSeg s := by
  rw [splitSlash_absL cs hs]
  intro s h
  by_cases hc : cs = []
  · simp [hc] at h; exact Or.inl h
  · simp only [hc, if_false, List.mem_cons] at h
    rcases h with h | h
    · exact Or.inl h
    · exact Or.inr (hs s h)

theorem filter_splitSlash_absL (cs : List (List Char)) (hs : ∀ c ∈ cs, ValidSeg c) :
    (splitSlash (absL cs)).filter (fun s => s ≠ []) = cs := by
  rw [splitSlash_absL cs hs]
  by_cases hc : cs = []
  · simp [hc]
  · simp only [hc, if_false]
    rw [List.filter_cons_of_neg (by simp), filter_valid cs hs]

/-- Cleaning an absolute path followed by a slash and further elements. -/
theorem pathClean_absL_append (cs rel : List (List Char)) (t : List Char)
    (hcs : ∀ c ∈ cs, ValidSeg c)
    (ht : ∀ s ∈ splitSlash t, s = [] ∨ ValidSeg s)
    (hf : (splitSlash t).filter (fun s => s ≠ []) = rel) :
    pathClean ⟨absL cs ++ '/' :: t⟩ = ⟨absL (cs ++ rel)⟩ ∧
    resolve ⟨absL cs ++ '/' :: t⟩ = (cs ++ rel).map String.mk := by
  have hseg : ∀ s ∈ splitSlash (absL cs ++ '/' :: t), s = [] ∨ ValidSeg s := by
    rw [splitSlash_append_slash]
    exact valid_or_of_mem_append (valid_or_absL cs hcs) ht
  have hfil : (splitSlash (absL cs ++ '/' :: t)).filter (fun s => s ≠ []) = cs ++ rel := by
    rw [splitSlash_append_slash, List.filter_append, filter_splitSlash_absL cs hcs, hf]
  constructor
  · rw [pathClean_of_segs _ (joinSlash cs ++ '/' :: t) (by simp [absL]) hseg, hfil]
  · rw [resolve_of_segs _ hseg, hfil]

theorem resolve_absL (cs : List (List Char)) (hcs : ∀ c ∈ cs, ValidSeg c) :
    resolve ⟨absL cs⟩ = cs.map String.mk := by
  rw [resolve_of_segs _ (valid_or_absL cs hcs), filter_splitSlash_absL cs hcs]

theorem map_mk_data (l : List String) : (l.map String.data).map String.mk = l := by
  induction l with
  | nil => rfl
  | cons a l ih => simp [ih]

theorem valid_map_data {l : List String} (h : ∀ n ∈ l, validName n) :
    ∀ c ∈ l.map String.data, ValidSeg c := by
  intro c hc
  obtain ⟨n, hn, rfl⟩ := List.mem_map.1 hc
  exact h n hn

theorem resolve_absPath (p : List String) (hp : ∀ n ∈ p, validName n) :
    resolve (absPath p) = p := by
  unfold absPath
  rw [resolve_absL _ (valid_map_data hp), map_mk_data]

theorem absPath_ne_empty (p : List String) : absPath p ≠ "" := by
  intro h
  have := congrArg String.data h
  simp [absPath, absL] at this

/-- `filepath.Join` of a clean absolute directory and a name. -/
theorem pathJoin_absPath_name (p : List String) (n : String) (hp : ∀ m ∈ p, validName m)
    (hn : validName n) : pathJoin (absPath p) n = absPath (p ++ [n]) := by
  unfold pathJoin
  simp only [absPath_ne_empty, ne_eq, not_false_eq_true, if_true]
  have h := (pathClean_absL_append (p.map String.data) [n.data] n.data (valid_map_data hp)
    (by
      rw [splitSlash_of_no_slash _ hn.2.2.2]; simpa using Or.inr hn) (by
      rw [splitSlash_of_no_slash _ hn.2.2.2]; simpa using hn.1)).1
  have e : absPath p ++ "/" ++ n = ⟨absL (p.map String.data) ++ '/' :: n.data⟩ := by
    apply String.ext; simp [absPath]
  rw [e, h]
  simp [absPath]

theorem absL_append (sc rel : List (List Char)) : absL (sc ++ rel) = absL sc ++ relL sc rel := by
  unfold absL relL
  by_cases h : sc = []
  · subst h; simp [joinSlash]
  · simp [h, joinSlash_append sc rel h]

theorem splitSlash_relL (sc rel : List (List Char)) (hrel : ∀ c ∈ rel, ValidSeg c) :
    (∀ s ∈ splitSlash (relL sc rel), s = [] ∨ ValidSeg s) ∧
    (splitSlash (relL sc rel)).filter (fun s => s ≠ []) = rel := by
  unfold relL
  by_cases h : sc = []
  · simp only [h, if_true]
    by_cases hr : rel = []
    · subst hr; simp [joinSlash, splitSlash]
    · rw [splitSlash_joinSlash rel hr (fun c hc => (hrel c hc).2.2.2)]
      exact ⟨fun s hs => Or.inr (hrel s hs), filter_valid rel hrel⟩
  · simp only [h, if_false]
    have := splitSlash_append_tailL [] rel hrel
    simp only [List.nil_append] at this
    rw [this]
    constructor
    · intro s hs
      simp only [splitSlash, List.singleton_append, List.mem_cons] at hs
      rcases hs with hs | hs
      · exact Or.inl hs
      · exact Or.inr (hrel s hs)
    · simp only [splitSlash, List.singleton_append]
      rw [List.filter_cons_of_neg (by simp), filter_valid rel hrel]

theorem trimPrefix_absPath (sc rel : List String) :
    trimPrefix (absPath (sc ++ rel)) (absPath sc) =
      ⟨relL (sc.map String.data) (rel.map String.data)⟩ := by
  unfold trimPrefix hasPrefix absPath
  simp only [List.map_append, absL_append]
  rw [List.isPrefixOf_iff_prefix.2 (List.prefix_append _ _)]
  simp

/-- The destination of a directory: the export root joined with what follows the source root. -/
theorem pathJoin_trimPrefix_absPath (sc ec rel : List String) (hec : ∀ n ∈ ec, validName n)
    (hrel : ∀ n ∈ rel, validName n) :
    pathJoin (absPath ec) (trimPrefix (absPath (sc ++ rel)) (absPath sc)) = absPath (ec ++ rel) := by
  rw [trimPrefix_absPath]
  unfold pathJoin
  simp only [absPath_ne_empty, ne_eq, not_false_eq_true, if_true]
  obtain ⟨h1, h2⟩ := splitSlash_relL (sc.map String.data) (rel.map String.data)
    (valid_map_data hrel)
  have h := (pathClean_absL_append (ec.map String.data) (rel.map String.data) _
    (valid_map_data hec) h1 h2).1
  have e : absPath ec ++ "/" ++ ⟨relL (sc.map String.data) (rel.map String.data)⟩ =
      ⟨absL (ec.map String.data) ++ '/' :: relL (sc.map String.data) (rel.map String.data)⟩ := by
    apply String.ext; simp [absPath]
  rw [e, h]
  simp [absPath]

theorem absL_snoc (p : List (List Char)) (n : List Char) :
    absL (p ++ [n]) = preL p ++ '/' :: n := by
  unfold preL absL
  by_cases h : p = []
  · subst h; simp [joinSlash]
  · simp [h, joinSlash_append_singleton p n h]

theorem dropWhile_append_of_all {α : Type} (f : α → Bool) (a b : List α)
    (h : ∀ x ∈ a, f x = true) : (a ++ b).dropWhile f = b.dropWhile f := by
  induction a with
  | nil => rfl
  | cons x xs ih =>
    simp only [List.cons_append, List.dropWhile_cons, h x (by simp), if_true]
    exact ih (fun y hy => h y (List.mem_cons_of_mem _ hy))

theorem takeWhile_append_of_all {α : Type} (f : α → Bool) (a : List α) (c : α) (b : List α)
    (h : ∀ x ∈ a, f x = true) (hc : f c = false) : (a ++ c :: b).takeWhile f = a := by
  induction a with
  | nil => simp [List.takeWhile, hc]
  | cons x xs ih =>
    simp only [List.cons_append, List.takeWhile_cons, h x (by simp), if_true]
    rw [ih (fun y hy => h y (List.mem_cons_of_mem _ hy))]

theorem pathClean_preL (p : List (List Char)) (hp : ∀ c ∈ p, ValidSeg c) :
    pathClean ⟨preL p ++ ['/']⟩ = ⟨absL p⟩ := by
  unfold preL
  by_cases h : p = []
  · subst h; decide
  · simp only [h, if_false]
    have := (pathClean_absL_append p [] [] hp (by simp [splitSlash]) (by simp [splitSlash])).1
    simpa using this

/-- `path.Dir` of a clean absolute path is its parent. -/
theorem pathDir_absPath (p : List String) (n : String) (hp : ∀ m ∈ p, validName m)
    (hn : '/' ∉ n.data) : pathDir (absPath (p ++ [n])) = absPath p := by
  unfold pathDir absPath
  simp only [List.map_append, List.map_cons, List.map_nil, absL_snoc]
  have e : ((preL (p.map String.data) ++ '/' :: n.data).reverse.dropWhile
      (fun c => c != '/')).reverse = preL (p.map String.data) ++ ['/'] := by
    rw [List.reverse_append, List.reverse_cons,
      List.append_assoc, dropWhile_append_of_all]
    · simp
    · intro x hx
      have : x ≠ '/' := fun hh => hn (by rw [← hh]; exact List.mem_reverse.1 hx)
      simpa using this
  rw [e, pathClean_preL _ (valid_map_data hp)]

theorem extScan_length (r acc : List Char) :
    extScan r acc = [] ∨ acc.length + 1 ≤ (extScan r acc).length := by
  induction r generalizing acc with
  | nil => left; rfl
  | cons c cs ih =>
    unfold extScan
    by_cases h1 : c = '/'
    · simp [h1]
    · by_cases h2 : c = '.'
      · simp [h2]
      · simp only [h1, h2, if_false]
        rcases ih (c :: acc) with h | h
        · exact Or.inl h
        · right; simp only [List.length_cons] at h; omega

/-- The scan of `path.Ext` yields `.tmpl` exactly on the paths that end in `.tmpl`. -/
theorem extScan_eq_tmpl (r : List Char) :
    extScan r [] = ['.', 't', 'm', 'p', 'l'] ↔ ['l', 'p', 'm', 't', '.'] <+: r := by
  constructor
  · intro h
    rcases r with _ | ⟨c1, r⟩
    · simp [extScan] at h
    unfold extScan at h
    by_cases a1 : c1 = '/'
    · simp [a1] at h
    by_cases b1 : c1 = '.'
    · simp [b1] at h
    simp only [a1, b1, if_false] at h
    rcases r with _ | ⟨c2, r⟩
    · simp [extScan] at h
    unfold extScan at h
    by_cases a2 : c2 = '/'
    · simp [a2] at h
    by_cases b2 : c2 = '.'
    · simp [b2] at h
    simp only [a2, b2, if_false] at h
    rcases r with _ | ⟨c3, r⟩
    · simp [extScan] at h
    unfold extScan at h
    by_cases a3 : c3 = '/'
    · simp [a3] at h
    by_cases b3 : c3 = '.'
    · simp [b3] at h
    simp only [a3, b3, if_false] at h
    rcases r with _ | ⟨c4, r⟩
    · simp [extScan] at h
    unfold extScan at h
    by_cases a4 : c4 = '/'
    · simp [a4] at h
    by_cases b4 : c4 = '.'
    · simp [b4] at h
    simp only [a4, b4, if_false] at h
    rcases r with _ | ⟨c5, r⟩
    · simp [extScan] at h
    unfold extScan at h
    by_cases a5 : c5 = '/'
    · simp [a5] at h
    by_cases b5 : c5 = '.'
    · subst b5
      simp only [if_true, List.cons.injEq, and_true, true_and, if_false, a5] at h
      obtain ⟨h4, h3, h2, h1⟩ := h
      subst h1 h2 h3 h4
      exact ⟨r, rfl⟩
    simp only [a5, b5, if_false] at h
    rcases extScan_length r [c5, c4, c3, c2, c1] with h0 | h0
    · rw [h0] at h; cases h
    · rw [h] at h0; simp at h0
  · rintro ⟨t, rfl⟩
    simp [extScan]

theorem pathExt_eq_tmpl_iff (fn : String) : pathExt fn = ".tmpl" ↔ hasSuffix fn ".tmpl" = true := by
  unfold pathExt hasSuffix
  rw [List.isSuffixOf_iff_suffix, ← List.reverse_prefix]
  have e : ".tmpl".data.reverse = ['l', 'p', 'm', 't', '.'] := rfl
  rw [e, ← extScan_eq_tmpl]
  constructor
  · intro h; exact congrArg String.data h
  · intro h; exact String.ext h

theorem lastElem_suffix (fn : String) : ∃ pre : List Char, fn.data = pre ++ (lastElem fn).data ∧
    (pre = [] ∨ ∃ pre1, pre = pre1 ++ ['/']) ∧ '/' ∉ (lastElem fn).data := by
  refine ⟨(fn.data.reverse.dropWhile (fun c => c != '/')).reverse, ?_, ?_, ?_⟩
  · unfold lastElem
    simp only
    rw [← List.reverse_append, List.takeWhile_append_dropWhile, List.reverse_reverse]
  · rcases hd : fn.data.reverse.dropWhile (fun c => c != '/') with _ | ⟨c, cs⟩
    · left; rfl
    · right
      have := List.head_dropWhile_not (fun c => c != '/') fn.data.reverse (by rw [hd]; simp)
      simp only [hd, List.head_cons, bne_iff_ne, ne_eq, Decidable.not_not,
        Bool.not_eq_true, bne_eq_false_iff_eq] at this
      exact ⟨cs.reverse, by simp [this]⟩
  · unfold lastElem
    simp only [List.mem_reverse]
    intro hm
    have := List.mem_takeWhile_imp hm
    simp at this

theorem extScan_append_slash (a x acc : List Char) (h : '/' ∉ a) :
    extScan (a ++ '/' :: x) acc = extScan a acc := by
  induction a generalizing acc with
  | nil => simp [extScan]
  | cons c cs ih =>
    simp only [List.mem_cons, not_or] at h
    have hc : c ≠ '/' := fun hh => h.1 hh.symm
    simp only [List.cons_append, extScan, hc, if_false]
    by_cases h2 : c = '.'
    · simp [h2]
    · simp only [h2, if_false]
      exact ih _ h.2

/-- A path ends in `.tmpl` exactly when its last element does. -/
theorem hasSuffix_lastElem (fn : String) :
    hasSuffix (lastElem fn) ".tmpl" = hasSuffix fn ".tmpl" := by
  obtain ⟨pre, hfn, hpre, hns⟩ := lastElem_suffix fn
  have hiff : hasSuffix (lastElem fn) ".tmpl" = true ↔ hasSuffix fn ".tmpl" = true := by
    rw [← pathExt_eq_tmpl_iff, ← pathExt_eq_tmpl_iff]
    have : extScan fn.data.reverse [] = extScan (lastElem fn).data.reverse [] := by
      rw [hfn]
      rcases hpre with rfl | ⟨pre1, rfl⟩
      · simp
      · rw [List.reverse_append, List.reverse_append]
        simp only [List.reverse_cons, List.reverse_nil, List.nil_append, List.singleton_append]
        exact extScan_append_slash _ _ _ (by simpa using hns)
    unfold pathExt
    rw [this]
  cases h1 : hasSuffix (lastElem fn) ".tmpl" <;> cases h2 : hasSuffix fn ".tmpl" <;> simp_all

/-! ## Joined paths without a dot-dot element -/

theorem splitSlash_no_slash (s : List Char) : ∀ seg ∈ splitSlash s, '/' ∉ seg := by
  induction s with
  | nil => simp [splitSlash]
  | cons c cs ih =>
    by_cases hc : c = '/'
    · simp only [splitSlash, hc, if_true, List.mem_cons]
      rintro seg (h | h)
      · simp [h]
      · exact ih seg h
    · simp only [splitSlash, hc, if_false]
      rcases hs : splitSlash cs with _ | ⟨s0, rest⟩
      · simp [hc, Ne.symm hc]
      · rw [hs] at ih
        simp only [List.mem_cons]
        rintro seg (h | h)
        · subst h
          simp only [List.mem_cons, not_or]
          exact ⟨fun hh => hc hh.symm, ih s0 (by simp)⟩
        · exact ih seg (by simp [h])

/-- The stack of a rooted scan holds valid elements only. -/
theorem foldl_cleanStep_valid (segs : List (List Char)) (hs : ∀ seg ∈ segs, '/' ∉ seg) :
    ∀ st : List (List Char), (∀ s ∈ st, ValidSeg s) →
      ∀ s ∈ segs.foldl (cleanStep true) st, ValidSeg s := by
  induction segs with
  | nil => intro st h; simpa using h
  | cons seg rest ih =>
    intro st h
    simp only [List.foldl_cons]
    apply ih (fun x hx => hs x (List.mem_cons_of_mem _ hx))
    unfold cleanStep
    by_cases h1 : seg = [] ∨ seg = ['.']
    · simpa [h1] using h
    · simp only [h1, if_false]
      by_cases h2 : seg = ['.', '.']
      · simp only [h2, if_true]
        cases st with
        | nil => simp
        | cons top tl =>
          simp only
          have htop : top ≠ ['.', '.'] := (h top (by simp)).2.2.1
          simp only [htop, if_false]
          exact fun s hs' => h s (List.mem_cons_of_mem _ hs')
      · simp only [h2, if_false]
        intro s hs'
        rcases List.mem_cons.1 hs' with h3 | h3
        · rw [h3]
          push_neg at h1
          exact ⟨h1.1, h1.2, h2, hs seg (by simp)⟩
        · exact h s h3

/-- A relative scan keeps what the rooted scan keeps, after the `..` elements it starts with. -/
theorem foldl_cleanStep_relative (segs : List (List Char)) (hs : ∀ seg ∈ segs, '/' ∉ seg) :
    ∀ (st : List (List Char)) (k : Nat), (∀ s ∈ st, ValidSeg s) →
      ∃ k1, segs.foldl (cleanStep false) (st ++ List.replicate k ['.', '.']) =
        segs.foldl (cleanStep true) st ++ List.replicate k1 ['.', '.'] := by
  induction segs with
  | nil => intro st k _; exact ⟨k, rfl⟩
  | cons seg rest ih =>
    intro st k h
    simp only [List.foldl_cons]
    have hrest := ih (fun x hx => hs x (List.mem_cons_of_mem _ hx))
    unfold cleanStep
    by_cases h1 : seg = [] ∨ seg = ['.']
    · simp only [h1, if_true]
      exact hrest st k h
    · simp only [h1, if_false]
      by_cases h2 : seg = ['.', '.']
      · simp only [h2, if_true]
        cases st with
        | nil =>
          cases k with
          | zero =>
            simpa using hrest [] 1 (by simp)
          | succ k =>
            simp only [List.nil_append, List.replicate_succ, if_true, Bool.false_eq_true,
              if_false]
            have := hrest [] (k + 2) (by simp)
            simpa [List.replicate_succ] using this
        | cons top tl =>
          have htop : top ≠ ['.', '.'] := (h top (by simp)).2.2.1
          simp only [List.cons_append, htop, if_false]
          exact hrest tl k (fun s hs' => h s (List.mem_cons_of_mem _ hs'))
      · simp only [h2, if_false]
        have hv : ValidSeg seg := by
          push_neg at h1
          exact ⟨h1.1, h1.2, h2, hs seg (by simp)⟩
        have := hrest (seg :: st) k (by
          intro s hs'
          rcases List.mem_cons.1 hs' with h3 | h3
          · rw [h3]; exact hv
          · exact h s h3)
        simpa using this

theorem foldl_cleanStep_dots (k : Nat) (segs : List (List Char)) :
    (List.replicate k ['.', '.'] ++ segs).foldl (cleanStep true) [] =
      segs.foldl (cleanStep true) [] := by
  induction k with
  | zero => rfl
  | succ k ih =>
    rw [List.replicate_succ, List.cons_append, List.foldl_cons]
    have : cleanStep true [] ['.', '.'] = [] := by decide
    rw [this, ih]

theorem joinSlash_eq_nil (l : List (List Char)) (h : ∀ s ∈ l, s ≠ []) (hj : joinSlash l = []) :
    l = [] := by
  cases l with
  | nil => rfl
  | cons a rest =>
    cases rest with
    | nil => simp only [joinSlash] at hj; exact absurd hj (h a (by simp))
    | cons b rest' => simp [joinSlash] at hj

theorem cleanSegs_joinSlash (l : List (List Char)) (hl : l ≠ []) (hsl : ∀ s ∈ l, '/' ∉ s) :
    cleanSegs true (joinSlash l) = (l.foldl (cleanStep true) []).reverse := by
  unfold cleanSegs
  rw [splitSlash_joinSlash _ hl hsl]

/-- Resolution does not see whether a path was cleaned. -/
theorem resolve_pathClean (x : String) : resolve (pathClean x) = resolve x := by
  unfold pathClean
  by_cases h0 : x.data = []
  · simp only [h0, if_true]
    have : x = "" := String.ext h0
    subst this; decide
  · simp only [h0, if_false]
    have hns := splitSlash_no_slash x.data
    by_cases hr : x.data.head? = some '/'
    · simp only [hr, decide_True, if_true]
      have hv : ∀ s ∈ cleanSegs true x.data, ValidSeg s := by
        intro s hs
        unfold cleanSegs at hs
        exact foldl_cleanStep_valid _ hns [] (by simp) s (List.mem_reverse.1 hs)
      show resolve ⟨absL (cleanSegs true x.data)⟩ = resolve x
      rw [resolve_absL _ hv]
      rfl
    · simp only [hr, decide_False, Bool.false_eq_true, if_false]
      obtain ⟨k1, hk⟩ := foldl_cleanStep_relative (splitSlash x.data) hns [] 0 (by simp)
      simp only [List.replicate_zero, List.append_nil] at hk
      have hv : ∀ s ∈ (splitSlash x.data).foldl (cleanStep true) [], ValidSeg s :=
        foldl_cleanStep_valid _ hns [] (by simp)
      have hseg : cleanSegs false x.data =
          List.replicate k1 ['.', '.'] ++ cleanSegs true x.data := by
        unfold cleanSegs
        rw [hk, List.reverse_append, List.reverse_replicate]
      have hne : ∀ s ∈ cleanSegs false x.data, s ≠ [] := by
        rw [hseg]
        intro s hs
        rcases List.mem_append.1 hs with h1 | h1
        · rw [(List.mem_replicate.1 h1).2]; simp
        · exact (hv s (List.mem_reverse.1 h1)).1
      have hsl : ∀ s ∈ cleanSegs false x.data, '/' ∉ s := by
        rw [hseg]
        intro s hs
        rcases List.mem_append.1 hs with h1 | h1
        · rw [(List.mem_replicate.1 h1).2]; decide
        · exact (hv s (List.mem_reverse.1 h1)).2.2.2
      by_cases hb : joinSlash (cleanSegs false x.data) = []
      · simp only [hb, if_true]
        have hnil := joinSlash_eq_nil _ hne hb
        rw [hseg] at hnil
        have h2 : cleanSegs true x.data = [] := (List.append_eq_nil.1 hnil).2
        show resolve "." = List.map String.mk (cleanSegs true x.data)
        rw [h2]; decide
      · simp only [hb, if_false]
        have hl : cleanSegs false x.data ≠ [] := by
          intro hh; rw [hh] at hb; exact hb rfl
        show List.map String.mk (cleanSegs true (joinSlash (cleanSegs false x.data))) =
          List.map String.mk (cleanSegs true x.data)
        congr 1
        have hv' : ∀ s ∈ cleanSegs true x.data, ValidSeg s :=
          fun s hs => hv s (List.mem_reverse.1 hs)
        rw [cleanSegs_joinSlash _ hl hsl, hseg, foldl_cleanStep_dots,
          foldl_cleanStep true (cleanSegs true x.data) (fun s hs => Or.inr (hv' s hs)) [],
          filter_valid _ hv']
        simp

/-- Without a `..` element the scan only adds to the stack. -/
theorem foldl_cleanStep_suffix (segs : List (List Char))
    (hs : ∀ seg ∈ segs, seg ≠ ['.', '.']) :
    ∀ st : List (List Char), st <:+ segs.foldl (cleanStep true) st := by
  induction segs with
  | nil => intro st; exact List.suffix_refl _
  | cons seg rest ih =>
    intro st
    simp only [List.foldl_cons]
    have h2 : seg ≠ ['.', '.'] := hs seg (by simp)
    have hstep : st <:+ cleanStep true st seg := by
      unfold cleanStep
      by_cases h1 : seg = [] ∨ seg = ['.']
      · simp [h1]
      · simp only [h1, h2, if_false]
        exact List.suffix_cons _ _
    exact hstep.trans (ih (fun x hx => hs x (List.mem_cons_of_mem _ hx)) _)

/-- An entry name without a `..` element is placed at or below the directory it is joined to. -/
theorem pathJoin_contained (customRoot name : String)
    (hname : ∀ seg ∈ splitSlash name.data, seg ≠ ['.', '.']) :
    resolve customRoot <+: resolve (pathJoin customRoot name) := by
  unfold pathJoin
  by_cases hc : customRoot = ""
  · subst hc
    have : resolve "" = [] := by decide
    rw [this]
    exact List.nil_prefix
  · simp only [hc, ne_eq, not_false_eq_true, if_true]
    rw [resolve_pathClean]
    unfold resolve cleanSegs
    have e : (customRoot ++ "/" ++ name).data = customRoot.data ++ '/' :: name.data := by
      simp
    rw [e, splitSlash_append_slash, List.foldl_append]
    have := foldl_cleanStep_suffix (splitSlash name.data) hname
      ((splitSlash customRoot.data).foldl (cleanStep true) [])
    obtain ⟨t, ht⟩ := this
    rw [← ht, List.reverse_append, List.map_append]
    exact List.prefix_append _ _

/-! ## The path functions on the cases of the Go test suite -/

/-- The model of `path.Clean` on the cases of the Go test suite. -/
theorem pathClean_examples :
    pathClean "" = "." ∧ pathClean "abc" = "abc" ∧ pathClean "abc/def" = "abc/def" ∧
    pathClean "." = "." ∧ pathClean ".." = ".." ∧ pathClean "../.." = "../.." ∧
    pathClean "../../abc" = "../../abc" ∧ pathClean "/abc" = "/abc" ∧ pathClean "/" = "/" ∧
    pathClean "abc/" = "abc" ∧ pathClean "a/b/c/" = "a/b/c" ∧ pathClean "./" = "." ∧
    pathClean "../../" = "../.." ∧ pathClean "/abc/" = "/abc" ∧
    pathClean "abc//def//ghi" = "abc/def/ghi" ∧ pathClean "//abc" = "/abc" ∧
    pathClean "//abc//" = "/abc" ∧ pathClean "abc/./def" = "abc/def" ∧
    pathClean "/./abc/def" = "/abc/def" ∧ pathClean "abc/." = "abc" ∧
    pathClean "abc/def/ghi/../jkl" = "abc/def/jkl" ∧ pathClean "abc/def/../ghi/../jkl" = "abc/jkl" ∧
    pathClean "abc/def/.." = "abc" ∧ pathClean "abc/def/../.." = "." ∧
    pathClean "/abc/def/../.." = "/" ∧ pathClean "abc/def/../../.." = ".." ∧
    pathClean "/abc/def/../../.." = "/" ∧
    pathClean "abc/def/../../../ghi/jkl/../../../mno" = "../../mno" ∧
    pathClean "abc/./../def" = "def" ∧ pathClean "abc//./../def" = "def" ∧
    pathClean "abc/../../././../def" = "../../def" := by
  decide

/-- The models of `path.Join`, `path.Ext` and `path.Dir` on cases of the Go test suite. -/
theorem path_examples :
    pathJoin "a" "b" = "a/b" ∧ pathJoin "a" "" = "a" ∧ pathJoin "" "b" = "b" ∧
    pathJoin "/" "a" = "/a" ∧ pathJoin "/" "" = "/" ∧ pathJoin "a/" "b" = "a/b" ∧
    pathJoin "a/" "" = "a" ∧ pathJoin "" "" = "" ∧
    pathExt "path.go" = ".go" ∧ pathExt "path.pb.go" = ".go" ∧ pathExt "a.dir/b" = "" ∧
    pathExt "a.dir/b.go" = ".go" ∧ pathExt "a.dir/" = "" ∧
    pathDir "" = "." ∧ pathDir "." = "." ∧ pathDir "/." = "/" ∧ pathDir "/" = "/" ∧
    pathDir "////" = "/" ∧ pathDir "/foo" = "/" ∧ pathDir "x/" = "x" ∧ pathDir "abc" = "." ∧
    pathDir "abc/def" = "abc" ∧ pathDir "abc////def" = "abc" ∧ pathDir "a/b/.x" = "a/b" ∧
    pathDir "a/b/c." = "a/b" ∧ pathDir "a/b/c.x" = "a/b" := by
  decide

/-! ## The destination of a file -/

theorem trimPrefix_append (a b : String) : trimPrefix (a ++ b) a = b := by
  unfold trimPrefix hasPrefix
  simp only [String.data_append]
  rw [List.isPrefixOf_iff_prefix.2 (List.prefix_append _ _)]
  simp

theorem outFileOf_eq_destPath (sourceRoot exportRoot rel : String) :
    outFileOf sourceRoot exportRoot (sourceRoot ++ rel) = destPath sourceRoot exportRoot rel := by
  unfold outFileOf destPath
  rw [trimPrefix_append, hasSuffix_lastElem]
  by_cases h : hasSuffix (sourceRoot ++ rel) ".tmpl" = true
  · simp [h, (pathExt_eq_tmpl_iff _).2 h]
  · have : ¬ pathExt (sourceRoot ++ rel) = ".tmpl" := fun hh => h ((pathExt_eq_tmpl_iff _).1 hh)
    simp [h, this]

theorem outputOf_eq_destData (e : Renderer) (sourceRoot rel data : String) :
    (outputOf e (sourceRoot ++ rel) data).1 = destData e sourceRoot rel data ∧
    ((outputOf e (sourceRoot ++ rel) data).2 =
      if hasSuffix (lastElem (sourceRoot ++ rel)) ".tmpl" then (e data).2 else none) := by
  unfold outputOf destData
  rw [hasSuffix_lastElem]
  by_cases h : hasSuffix (sourceRoot ++ rel) ".tmpl" = true
  · simp [h, (pathExt_eq_tmpl_iff _).2 h]
  · have : ¬ pathExt (sourceRoot ++ rel) = ".tmpl" := fun hh => h ((pathExt_eq_tmpl_iff _).1 hh)
    simp [h, this]

/-- The walk function on a file whose name, as the walk reports it, is `sourceRoot ++ rel`,
whose destination directory can be made and whose destination can be
created, and whose rendering returns no error when its name ends in `.tmpl`: the walk function
succeeds and counts the file, the destination is `exportRoot` joined with `rel`, without the
final `.tmpl` of a template's name (`destPath`), and it holds the renderer's output for a
template and the source bytes otherwise (`destData`); no other path changes. -/
theorem renderVisit_file_mapping (e : Renderer) (sourceRoot exportRoot rel data : String)
    (st : FS × Nat) (fs1 fs2 : FS)
    (hdir : mkdirAll (pathDir (destPath sourceRoot exportRoot rel)) st.1 = Except.ok fs1)
    (hcreate : create (destPath sourceRoot exportRoot rel) fs1 = Except.ok fs2)
    (hrender : hasSuffix (lastElem (sourceRoot ++ rel)) ".tmpl" = true → (e data).2 = none) :
    ∃ fs3,
      renderVisit e sourceRoot exportRoot (sourceRoot ++ rel) (Visit.file (Except.ok data)) st =
        (none, (fs3, st.2 + 1)) ∧
      fs3 (resolve (destPath sourceRoot exportRoot rel)) =
        some (Entry.file (destData e sourceRoot rel data)) ∧
      ∀ q, q ≠ resolve (destPath sourceRoot exportRoot rel) → fs3 q = fs1 q := by
  obtain ⟨hd1, hd2⟩ := outputOf_eq_destData e sourceRoot rel data
  have hnone : (outputOf e (sourceRoot ++ rel) data).2 = none := by
    rw [hd2]
    by_cases h : hasSuffix (lastElem (sourceRoot ++ rel)) ".tmpl" = true
    · simp [h, hrender h]
    · simp [h]
  refine ⟨writeFile (destPath sourceRoot exportRoot rel) (destData e sourceRoot rel data) fs2,
    ?_, ?_, ?_⟩
  · rw [renderVisit_file_eq, outFileOf_eq_destPath, hd1]
    unfold putStep
    simp only [hdir, hcreate, hnone]
  · simp [writeFile]
  · intro q hq
    rw [writeFile_create _ _ _ _ hcreate]
    simp [hq]

/-- The walk function on `/core/x.conf.tmpl`: it produces `x.conf`, holding the renderer's
output. -/
theorem renderVisit_file_mapping_witness :
    destPath "/core" "/config/kamailio" "/x.conf.tmpl" = "/config/kamailio/x.conf" ∧
    destData bracketRenderer "/core" "/x.conf.tmpl" "listen" = "<listen>" ∧
    ∃ fs3,
      renderVisit bracketRenderer "/core" "/config/kamailio" ("/core" ++ "/x.conf.tmpl")
        (Visit.file (Except.ok "listen")) (FS.empty, 0) = (none, (fs3, 0 + 1)) ∧
      fs3 (resolve (destPath "/core" "/config/kamailio" "/x.conf.tmpl")) =
        some (Entry.file (destData bracketRenderer "/core" "/x.conf.tmpl" "listen")) ∧
      ∀ q, q ≠ resolve (destPath "/core" "/config/kamailio" "/x.conf.tmpl") →
        fs3 q = (fun q => if q.isPrefixOf ["config", "kamailio"] then some Entry.dir
          else FS.empty q) q :=
  ⟨by decide, by decide,
    renderVisit_file_mapping bracketRenderer "/core" "/config/kamailio" "/x.conf.tmpl" "listen"
      (FS.empty, 0) (fun q => if q.isPrefixOf ["config", "kamailio"] then some Entry.dir
          else FS.empty q)
      (fun q => if q = ["config", "kamailio", "x.conf"] then some (Entry.file "")
          else if q.isPrefixOf ["config", "kamailio"] then some Entry.dir else FS.empty q)
      rfl rfl (fun _ => rfl)⟩

/-! ## The layers as a plan -/

theorem lookup_mem {α β : Type} [BEq α] [LawfulBEq α] (q : α) (c : β) :
    ∀ l : List (α × β), l.lookup q = some c → (q, c) ∈ l := by
  intro l
  induction l with
  | nil => intro h; simp [List.lookup] at h
  | cons x xs ih =>
    intro h
    obtain ⟨a, b⟩ := x
    by_cases hq : q == a
    · simp only [List.lookup, hq] at h
      have : q = a := eq_of_beq hq
      subst this
      simp only [Option.some.injEq] at h
      subst h
      simp
    · have hq' : (q == a) = false := by simpa using hq
      simp only [List.lookup, hq'] at h
      exact List.mem_cons_of_mem _ (ih h)

theorem lastOutput_mem (W : List (List String × String)) (q : List String) (c : String)
    (h : lastOutput W q = some c) : (q, c) ∈ W := by
  have := lookup_mem q c W.reverse h
  simpa using this

theorem lastOutput_snoc (W : List (List String × String)) (f : List String) (c : String)
    (q : List String) :
    lastOutput (W ++ [(f, c)]) q = if q = f then some c else lastOutput W q := by
  unfold lastOutput
  rw [List.reverse_append]
  simp only [List.reverse_cons, List.reverse_nil, List.nil_append, List.singleton_append]
  by_cases h : q = f
  · subst h; simp [List.lookup]
  · have : (q == f) = false := by simpa using h
    simp [List.lookup, this, h]

theorem lastOutput_append (W V : List (List String × String)) (q : List String) :
    lastOutput (W ++ V) q = (lastOutput V q <|> lastOutput W q) := by
  unfold lastOutput
  rw [List.reverse_append]
  induction V.reverse with
  | nil => simp [List.lookup]
  | cons x xs ih =>
    obtain ⟨a, b⟩ := x
    by_cases h : q == a
    · simp [List.lookup, h]
    · have h' : (q == a) = false := by simpa using h
      simp only [List.cons_append, List.lookup, h']
      exact ih

theorem Compatible.mono {D D1 : List (List String)} {W W1 : List (List String × String)}
    {fs : FS} (h : Compatible D1 W1 fs) (hD : ∀ d ∈ D, d ∈ D1) (hW : ∀ f ∈ W, f ∈ W1) :
    Compatible D W fs :=
  ⟨fun d hd => h.1 d (hD d hd), fun f hf => h.2.1 f (hW f hf),
    fun f hf d hd => h.2.2 f (hW f hf) d (hD d hd)⟩

theorem lastOutput_none_above {D : List (List String)} {W : List (List String × String)}
    {fs : FS} (h : Compatible D W fs) {d q : List String} (hd : d ∈ D) (hq : q <+: d) :
    lastOutput W q = none := by
  rcases hl : lastOutput W q with _ | c
  · rfl
  · have hm := lastOutput_mem W q c hl
    have := h.2.2 _ hm d hd
    rw [List.isPrefixOf_iff_prefix.2 hq] at this
    cases this

theorem overlay_snoc_file (D : List (List String)) (W : List (List String × String)) (fs : FS)
    (f : List String) (c : String) :
    overlay D (W ++ [(f, c)]) fs =
      fun q => if q = f then some (Entry.file c) else overlay D W fs q := by
  funext q
  unfold overlay
  rw [lastOutput_snoc]
  by_cases h : q = f <;> simp [h]

theorem overlay_snoc_dir (D : List (List String)) (W : List (List String × String)) (fs : FS)
    (p : List String) (h : Compatible (D ++ [p]) W fs) :
    overlay (D ++ [p]) W fs =
      fun q => if q.isPrefixOf p then some Entry.dir else overlay D W fs q := by
  funext q
  unfold overlay
  by_cases hq : q.isPrefixOf p = true
  · rw [lastOutput_none_above h (by simp : p ∈ D ++ [p]) (List.isPrefixOf_iff_prefix.1 hq)]
    simp [hq]
  · simp [hq]

theorem overlay_nil (fs : FS) : overlay [] [] fs = fs := by
  funext q
  simp [overlay, lastOutput, List.lookup]

theorem isFile_stat_overlay {D : List (List String)} {W : List (List String × String)}
    {fs : FS} {d q : List String} (h : Compatible (D ++ [d]) W fs) (hq : q <+: d) :
    isFile (stat (overlay D W fs) q) = false := by
  by_cases h0 : q = []
  · simp [stat, h0, isFile]
  · simp only [stat, h0, if_false]
    unfold overlay
    rw [lastOutput_none_above h (by simp : d ∈ D ++ [d]) hq]
    simp only
    split
    · rfl
    · have := h.1 d (by simp) q ((List.mem_inits _ _).2 hq)
      simpa [stat, h0] using this

theorem overlay_dir_of_mem {D : List (List String)} {W : List (List String × String)}
    {fs : FS} {d q : List String} (h : Compatible D W fs) (hd : d ∈ D) (hq : q <+: d) :
    stat (overlay D W fs) q = some Entry.dir := by
  by_cases h0 : q = []
  · simp [stat, h0]
  · simp only [stat, h0, if_false]
    unfold overlay
    rw [lastOutput_none_above h hd hq]
    have : D.any (fun d => q.isPrefixOf d) = true :=
      List.any_eq_true.2 ⟨d, hd, List.isPrefixOf_iff_prefix.2 hq⟩
    simp [this]

/-- Making a directory of the plan on a state of the plan. -/
theorem mkdirStep_overlay (D : List (List String)) (W : List (List String × String)) (fs : FS)
    (p : List String) (n : Nat) (hp : ∀ m ∈ p, validName m) (h : Compatible (D ++ [p]) W fs) :
    mkdirStep (absPath p) (overlay D W fs, n) = (none, (overlay (D ++ [p]) W fs, n)) := by
  unfold mkdirStep
  have hm : mkdirAll (absPath p) (overlay D W fs) = Except.ok (overlay (D ++ [p]) W fs) := by
    rw [mkdirAll_ok_iff, resolve_absPath p hp]
    exact ⟨absPath_ne_empty p, fun q hq => isFile_stat_overlay h hq, overlay_snoc_dir D W fs p h⟩
  simp only [hm]

theorem getLast_absPath_snoc (p : List String) (n : String) (hn : validName n) :
    (absPath (p ++ [n])).data.getLast? ≠ some '/' := by
  unfold absPath
  simp only [List.map_append, List.map_cons, List.map_nil, absL_snoc]
  obtain ⟨h1, -, -, h4⟩ := hn
  rw [show preL (p.map String.data) ++ '/' :: n.data =
    (preL (p.map String.data) ++ ['/']) ++ n.data by simp]
  rw [List.getLast?_append_of_ne_nil _ h1]
  intro hh
  have := List.mem_of_getLast?_eq_some hh
  exact h4 this

/-- Writing a file of the plan on a state of the plan that holds its directory. -/
theorem putStep_overlay (D : List (List String)) (W : List (List String × String)) (fs : FS)
    (p : List String) (nm c : String) (n : Nat) (hp : ∀ m ∈ p, validName m)
    (hnm : validName nm) (hD : p ∈ D) (h : Compatible D (W ++ [(p ++ [nm], c)]) fs) :
    putStep (absPath (p ++ [nm])) c none (overlay D W fs, n) =
      (none, (overlay D (W ++ [(p ++ [nm], c)]) fs, n + 1)) := by
  have hW : Compatible D W fs := h.mono (fun d hd => hd) (fun f hf => by simp [hf])
  have hpn : ∀ m ∈ p ++ [nm], validName m := by
    intro m hm
    rcases List.mem_append.1 hm with h1 | h1
    · exact hp m h1
    · simp only [List.mem_singleton] at h1; rw [h1]; exact hnm
  unfold putStep
  have hm : mkdirAll (pathDir (absPath (p ++ [nm]))) (overlay D W fs) =
      Except.ok (overlay D W fs) := by
    rw [pathDir_absPath p nm hp hnm.2.2.2, mkdirAll_ok_iff, resolve_absPath p hp]
    refine ⟨absPath_ne_empty p, ?_, ?_⟩
    · intro q hq
      rw [overlay_dir_of_mem hW hD hq]; rfl
    · funext q
      by_cases hq : q.isPrefixOf p = true
      · simp only [hq, if_true]
        have := overlay_dir_of_mem hW hD (List.isPrefixOf_iff_prefix.1 hq)
        by_cases h0 : q = []
        · subst h0
          unfold overlay
          rw [lastOutput_none_above hW hD (List.nil_prefix)]
          have : D.any (fun d => ([] : List String).isPrefixOf d) = true :=
            List.any_eq_true.2 ⟨p, hD, by simp [List.isPrefixOf]⟩
          simp only [this, if_true]
        · simpa [stat, h0] using this
      · simp [hq]
  have hc : create (absPath (p ++ [nm])) (overlay D W fs) = Except.ok
      (fun q => if q = p ++ [nm] then some (Entry.file "") else overlay D W fs q) := by
    rw [create_ok_iff, resolve_absPath _ hpn]
    refine ⟨absPath_ne_empty _, getLast_absPath_snoc p nm hnm, ?_, ?_, rfl⟩
    · rw [List.dropLast_concat]
      exact overlay_dir_of_mem hW hD (List.prefix_refl _)
    · have hne : p ++ [nm] ≠ [] := by simp
      simp only [stat, hne, if_false]
      unfold overlay
      rcases hl : lastOutput W (p ++ [nm]) with _ | c1
      · simp only
        have hany : D.any (fun d => (p ++ [nm]).isPrefixOf d) = false := by
          rw [List.any_eq_false]
          intro d hd
          show ¬ ((p ++ [nm]).isPrefixOf d = true)
          rw [h.2.2 (p ++ [nm], c) (by simp) d hd]
          exact Bool.false_ne_true
        simp only [hany]
        have := h.2.1 (p ++ [nm], c) (by simp)
        simpa [stat, hne] using this
      · simp
  simp only [hm, hc]
  rw [writeFile_create _ c _ _ hc, resolve_absPath _ hpn, overlay_snoc_file]

theorem lastElem_absPath (p : List String) (n : String) (hn : '/' ∉ n.data) :
    lastElem (absPath (p ++ [n])) = n := by
  unfold lastElem absPath
  simp only [List.map_append, List.map_cons, List.map_nil, absL_snoc]
  apply String.ext
  simp only
  rw [List.reverse_append, List.reverse_cons, List.append_assoc]
  simp only [List.singleton_append]
  rw [takeWhile_append_of_all]
  · simp
  · intro x hx
    have : x ≠ '/' := fun hh => hn (by rw [← hh]; exact List.mem_reverse.1 hx)
    simpa using this
  · simp

theorem hasSuffix_absPath (p : List String) (n : String) (hn : '/' ∉ n.data) :
    hasSuffix (absPath (p ++ [n])) ".tmpl" = hasSuffix n ".tmpl" := by
  rw [← hasSuffix_lastElem, lastElem_absPath p n hn]

theorem take_length_sub {α : Type} (a t : List α) :
    (a ++ t).take ((a ++ t).length - t.length) = a := by
  rw [List.length_append, Nat.add_sub_cancel]
  exact List.take_left' rfl

theorem trimSuffix_absPath (p : List String) (n : String)
    (h : hasSuffix (absPath (p ++ [n])) ".tmpl" = true) (hn : hasSuffix n ".tmpl" = true) :
    trimSuffix (absPath (p ++ [n])) ".tmpl" = absPath (p ++ [destName n]) := by
  unfold destName trimSuffix
  rw [h, hn]
  simp only [if_true]
  unfold hasSuffix at hn
  rw [List.isSuffixOf_iff_suffix] at hn
  obtain ⟨stem, hstem⟩ := hn
  unfold absPath
  apply String.ext
  simp only [List.map_append, List.map_cons, List.map_nil, absL_snoc]
  rw [← hstem]
  have e1 : preL (p.map String.data) ++ '/' :: (stem ++ ".tmpl".data) =
      (preL (p.map String.data) ++ '/' :: stem) ++ ".tmpl".data := by simp
  rw [e1, take_length_sub]
  show _ = preL (p.map String.data) ++
    '/' :: List.take ((stem ++ ".tmpl".data).length - ".tmpl".data.length) (stem ++ ".tmpl".data)
  rw [take_length_sub]

/-- The destination the walk function computes for a file of a layer with clean roots. -/
theorem outFileOf_absPath (sc ec rel : List String) (name : String)
    (hec : ∀ n ∈ ec, validName n) (hrel : ∀ n ∈ rel, validName n) (hname : validName name) :
    outFileOf (absPath sc) (absPath ec) (absPath (sc ++ rel ++ [name])) =
      absPath (ec ++ rel ++ [destName name]) := by
  have hrel' : ∀ n ∈ rel ++ [name], validName n := by
    intro m hm
    rcases List.mem_append.1 hm with h1 | h1
    · exact hrel m h1
    · simp only [List.mem_singleton] at h1; rw [h1]; exact hname
  have hj := pathJoin_trimPrefix_absPath sc ec (rel ++ [name]) hec hrel'
  rw [← List.append_assoc, ← List.append_assoc] at hj
  unfold outFileOf
  rw [hj]
  by_cases h : hasSuffix name ".tmpl" = true
  · have h1 : hasSuffix (absPath (sc ++ rel ++ [name])) ".tmpl" = true := by
      rw [hasSuffix_absPath _ _ hname.2.2.2]; exact h
    have h2 : hasSuffix (absPath (ec ++ rel ++ [name])) ".tmpl" = true := by
      rw [hasSuffix_absPath _ _ hname.2.2.2]; exact h
    rw [if_pos ((pathExt_eq_tmpl_iff _).2 h1), trimSuffix_absPath _ _ h2 h]
  · have h1 : ¬ pathExt (absPath (sc ++ rel ++ [name])) = ".tmpl" := by
      intro hh
      have := (pathExt_eq_tmpl_iff _).1 hh
      rw [hasSuffix_absPath _ _ hname.2.2.2] at this
      exact h this
    rw [if_neg h1]
    unfold destName trimSuffix
    simp [h]

theorem outputOf_absPath (e : Renderer) (p : List String) (name data : String)
    (hname : validName name) (hr : hasSuffix name ".tmpl" = true → (e data).2 = none) :
    outputOf e (absPath (p ++ [name])) data = (layerData e name data, none) := by
  unfold outputOf layerData
  by_cases h : hasSuffix name ".tmpl" = true
  · have h1 : hasSuffix (absPath (p ++ [name])) ".tmpl" = true := by
      rw [hasSuffix_absPath _ _ hname.2.2.2]; exact h
    rw [if_pos ((pathExt_eq_tmpl_iff _).2 h1), if_pos h]
    exact Prod.ext rfl (hr h)
  · have h1 : ¬ pathExt (absPath (p ++ [name])) = ".tmpl" := by
      intro hh
      have := (pathExt_eq_tmpl_iff _).1 hh
      rw [hasSuffix_absPath _ _ hname.2.2.2] at this
      exact h this
    rw [if_neg h1, if_neg h]

mutual
/-- The walk of a layer node on a state of the plan. -/
theorem walk_overlay (e : Renderer) (sc ec : List String) (fs : FS)
    (hsc : ∀ m ∈ sc, validName m) (hec : ∀ m ∈ ec, validName m) :
    ∀ (node : SrcNode) (rel : List String) (name : String) (D : List (List String))
      (W : List (List String × String)) (n : Nat),
      (∀ m ∈ rel, validName m) → nodeSound e name node = true → ec ++ rel ∈ D →
      Compatible (D ++ nodeDirs (ec ++ rel) name node)
        (W ++ nodeFiles e (ec ++ rel) name node) fs →
      walk (renderVisit e (absPath sc) (absPath ec)) (absPath (sc ++ rel ++ [name])) node
          (overlay D W fs, n) =
        (none, (overlay (D ++ nodeDirs (ec ++ rel) name node)
          (W ++ nodeFiles e (ec ++ rel) name node) fs, n + fileNodes node))
  | SrcNode.file data, rel, name, D, W, n, hrel, hs, hD, hC => by
    simp only [nodeSound, Bool.and_eq_true, decide_eq_true_eq, Bool.or_eq_true,
      Bool.not_eq_true'] at hs
    obtain ⟨⟨hname, hdest⟩, hr⟩ := hs
    have hr' : hasSuffix name ".tmpl" = true → (e data).2 = none := by
      intro h
      rcases hr with h1 | h1
      · rw [h1] at h; cases h
      · exact h1
    simp only [walk, nodeDirs, nodeFiles, fileNodes, List.append_nil] at hC ⊢
    rw [renderVisit_file_eq, outFileOf_absPath sc ec rel name hec hrel hname,
      outputOf_absPath e (sc ++ rel) name data hname hr']
    have hp : ∀ m ∈ ec ++ rel, validName m := by
      intro m hm
      rcases List.mem_append.1 hm with h1 | h1
      · exact hec m h1
      · exact hrel m h1
    exact putStep_overlay D W fs (ec ++ rel) (destName name) _ n hp hdest hD hC
  | SrcNode.unreadable err, rel, name, D, W, n, hrel, hs, hD, hC => by
    simp [nodeSound] at hs
  | SrcNode.inaccessible err, rel, name, D, W, n, hrel, hs, hD, hC => by
    simp [nodeSound] at hs
  | SrcNode.dir entries, rel, name, D, W, n, hrel, hs, hD, hC => by
    simp only [nodeSound, Bool.and_eq_true, decide_eq_true_eq] at hs
    obtain ⟨hname, hes⟩ := hs
    have hrel' : ∀ m ∈ rel ++ [name], validName m := by
      intro m hm
      rcases List.mem_append.1 hm with h1 | h1
      · exact hrel m h1
      · simp only [List.mem_singleton] at h1; rw [h1]; exact hname
    have hp : ∀ m ∈ ec ++ (rel ++ [name]), validName m := by
      intro m hm
      rcases List.mem_append.1 hm with h1 | h1
      · exact hec m h1
      · exact hrel' m h1
    simp only [nodeDirs, nodeFiles, fileNodes] at hC ⊢
    rw [walk_dir_eq, renderVisit_dir_eq]
    have hj := pathJoin_trimPrefix_absPath sc ec (rel ++ [name]) hec hrel'
    rw [← List.append_assoc] at hj
    rw [hj]
    have hC1 : Compatible (D ++ [ec ++ (rel ++ [name])]) W fs := by
      apply hC.mono
      · intro d hd
        simp only [List.mem_append, List.mem_singleton, List.mem_cons] at hd ⊢
        rcases hd with h1 | h1
        · exact Or.inl h1
        · rcases h1 with h1 | h1
          · right; left; rw [h1, List.append_assoc]
          · cases h1
      · intro f hf; simp [hf]
    have hstep := mkdirStep_overlay D W fs (ec ++ (rel ++ [name])) n hp hC1
    unfold seqStep
    rw [hstep]
    simp only
    have hC2 : Compatible (D ++ [ec ++ (rel ++ [name])] ++
        entriesDirs (ec ++ (rel ++ [name])) entries)
        (W ++ entriesFiles e (ec ++ (rel ++ [name])) entries) fs := by
      rw [← List.append_assoc ec rel [name]]
      simpa using hC
    have := walkEntries_overlay e sc ec fs hsc hec entries (rel ++ [name])
      (D ++ [ec ++ (rel ++ [name])]) W n hrel' hes (by simp) hC2
    rw [← List.append_assoc sc rel [name]] at this
    rw [this]
    simp [List.append_assoc]
/-- The walk of the entries of a layer directory on a state of the plan. -/
theorem walkEntries_overlay (e : Renderer) (sc ec : List String) (fs : FS)
    (hsc : ∀ m ∈ sc, validName m) (hec : ∀ m ∈ ec, validName m) :
    ∀ (entries : SrcEntries) (rel : List String) (D : List (List String))
      (W : List (List String × String)) (n : Nat),
      (∀ m ∈ rel, validName m) → entriesSound e entries = true → ec ++ rel ∈ D →
      Compatible (D ++ entriesDirs (ec ++ rel) entries)
        (W ++ entriesFiles e (ec ++ rel) entries) fs →
      walkEntries (renderVisit e (absPath sc) (absPath ec)) (absPath (sc ++ rel)) entries
          (overlay D W fs, n) =
        (none, (overlay (D ++ entriesDirs (ec ++ rel) entries)
          (W ++ entriesFiles e (ec ++ rel) entries) fs, n + fileEntries entries))
  | SrcEntries.nil, rel, D, W, n, hrel, hs, hD, hC => by
    simp [walkEntries, entriesDirs, entriesFiles, fileEntries]
  | SrcEntries.cons name node rest, rel, D, W, n, hrel, hs, hD, hC => by
    simp only [entriesSound, Bool.and_eq_true] at hs
    obtain ⟨hnode, hrest⟩ := hs
    simp only [entriesDirs, entriesFiles, fileEntries] at hC ⊢
    have hname : validName name := by
      cases node with
      | file data =>
        simp only [nodeSound, Bool.and_eq_true, decide_eq_true_eq] at hnode
        exact hnode.1.1
      | dir es =>
        simp only [nodeSound, Bool.and_eq_true, decide_eq_true_eq] at hnode
        exact hnode.1
      | unreadable err => simp [nodeSound] at hnode
      | inaccessible err => simp [nodeSound] at hnode
    have hsrel : ∀ m ∈ sc ++ rel, validName m := by
      intro m hm
      rcases List.mem_append.1 hm with h1 | h1
      · exact hsc m h1
      · exact hrel m h1
    rw [walkEntries_cons_eq, pathJoin_absPath_name (sc ++ rel) name hsrel hname]
    have hC1 : Compatible (D ++ nodeDirs (ec ++ rel) name node)
        (W ++ nodeFiles e (ec ++ rel) name node) fs := by
      apply hC.mono
      · intro d hd
        simp only [List.mem_append] at hd ⊢
        rcases hd with h1 | h1
        · exact Or.inl h1
        · exact Or.inr (Or.inl h1)
      · intro f hf
        simp only [List.mem_append] at hf ⊢
        rcases hf with h1 | h1
        · exact Or.inl h1
        · exact Or.inr (Or.inl h1)
    have h1 := walk_overlay e sc ec fs hsc hec node rel name D W n hrel hnode hD hC1
    unfold seqStep
    rw [h1]
    simp only
    have hC2 : Compatible (D ++ nodeDirs (ec ++ rel) name node ++ entriesDirs (ec ++ rel) rest)
        (W ++ nodeFiles e (ec ++ rel) name node ++ entriesFiles e (ec ++ rel) rest) fs := by
      simpa [List.append_assoc] using hC
    have h2 := walkEntries_overlay e sc ec fs hsc hec rest rel
      (D ++ nodeDirs (ec ++ rel) name node) (W ++ nodeFiles e (ec ++ rel) name node)
      (n + fileNodes node) hrel hrest (by simp [hD]) hC2
    rw [h2]
    simp [List.append_assoc, Nat.add_assoc]
end

/-- The rendering of a whole layer on a state of the plan. -/
theorem renderDirectory_overlay (e : Renderer) (sc ec : List String) (fs : FS)
    (entries : SrcEntries) (D : List (List String)) (W : List (List String × String))
    (hsc : ∀ m ∈ sc, validName m) (hec : ∀ m ∈ ec, validName m)
    (hs : entriesSound e entries = true) (hcount : 1 ≤ fileEntries entries)
    (hC : Compatible (D ++ layerDirs ec entries) (W ++ entriesFiles e ec entries) fs) :
    renderDirectory e (absPath sc) (absPath ec) (SrcNode.dir entries) (overlay D W fs) =
      (none, overlay (D ++ layerDirs ec entries) (W ++ entriesFiles e ec entries) fs) := by
  unfold renderDirectory
  rw [walk_dir_eq, renderVisit_dir_eq]
  have hj := pathJoin_trimPrefix_absPath sc ec [] hec (by simp)
  simp only [List.append_nil] at hj
  rw [hj]
  have hC1 : Compatible (D ++ [ec]) W fs := by
    apply hC.mono
    · intro d hd
      simp only [layerDirs, List.mem_append, List.mem_singleton, List.mem_cons] at hd ⊢
      rcases hd with h1 | h1 | h1
      · exact Or.inl h1
      · exact Or.inr (Or.inl h1)
      · cases h1
    · intro f hf; simp [hf]
  unfold seqStep
  rw [mkdirStep_overlay D W fs ec 0 hec hC1]
  simp only
  have hC2 : Compatible (D ++ [ec] ++ entriesDirs (ec ++ []) entries)
      (W ++ entriesFiles e (ec ++ []) entries) fs := by
    simpa [layerDirs] using hC
  have h := walkEntries_overlay e sc ec fs hsc hec entries [] (D ++ [ec]) W 0 (by simp) hs
    (by simp) hC2
  simp only [List.append_nil] at h
  rw [h]
  have hlt : ¬ (0 + fileEntries entries < 1) := by omega
  simp only [hlt, if_false, layerDirs]
  simp

theorem lastOutput_eq_none_iff (W : List (List String × String)) (q : List String) :
    lastOutput W q = none ↔ q ∉ W.map Prod.fst := by
  induction W using List.reverseRecOn with
  | nil => simp [lastOutput, List.lookup]
  | append_singleton W x ih =>
    obtain ⟨f, c⟩ := x
    rw [lastOutput_snoc]
    by_cases h : q = f
    · simp [h]
    · simp only [h, if_false, ih, List.map_append, List.map_cons, List.map_nil,
        List.mem_append, List.mem_singleton, or_false]

/-- The rendering of the three layers leaves the plan of the three layers. -/
theorem render_overlay (s : Service) (e : Renderer) (base profile custom : SrcEntries)
    (fs : FS) (coreDir profileDir customDir exportDir : List String)
    (hcore : s.CoreRoot = absPath coreDir) (hprofile : s.ProfileRoot = absPath profileDir)
    (hcustom : s.CustomRoot = absPath customDir) (hexport : s.ExportRoot = absPath exportDir)
    (hnames : ∀ m ∈ coreDir ++ profileDir ++ customDir ++ exportDir, validName m)
    (hsound : entriesSound e base = true ∧ entriesSound e profile = true ∧
      entriesSound e custom = true)
    (hfiles : 1 ≤ fileEntries base ∧ 1 ≤ fileEntries profile ∧ 1 ≤ fileEntries custom)
    (hcompat : Compatible
      (layerDirs exportDir base ++ layerDirs exportDir profile ++ layerDirs exportDir custom)
      (entriesFiles e exportDir base ++ entriesFiles e exportDir profile ++
        entriesFiles e exportDir custom) fs) :
    s.render e ⟨SrcNode.dir base, SrcNode.dir profile, SrcNode.dir custom⟩ fs =
      (none, overlay
        (layerDirs exportDir base ++ layerDirs exportDir profile ++ layerDirs exportDir custom)
        (entriesFiles e exportDir base ++ entriesFiles e exportDir profile ++
          entriesFiles e exportDir custom) fs) := by
  have hc : ∀ m ∈ coreDir, validName m := fun m hm => hnames m (by simp [hm])
  have hp : ∀ m ∈ profileDir, validName m := fun m hm => hnames m (by simp [hm])
  have hu : ∀ m ∈ customDir, validName m := fun m hm => hnames m (by simp [hm])
  have he : ∀ m ∈ exportDir, validName m := fun m hm => hnames m (by simp [hm])
  have h1 := renderDirectory_overlay e coreDir exportDir fs base [] [] hc he hsound.1 hfiles.1
    (hcompat.mono (fun d hd => by simp only [List.nil_append] at hd; simp [hd])
      (fun f hf => by simp only [List.nil_append] at hf; simp [hf]))
  have h2 := renderDirectory_overlay e profileDir exportDir fs profile
    ([] ++ layerDirs exportDir base) ([] ++ entriesFiles e exportDir base) hp he hsound.2.1
    hfiles.2.1
    (hcompat.mono (fun d hd => by
        simp only [List.nil_append, List.mem_append] at hd ⊢; exact Or.inl hd)
      (fun f hf => by
        simp only [List.nil_append, List.mem_append] at hf ⊢; exact Or.inl hf))
  have h3 := renderDirectory_overlay e customDir exportDir fs custom
    ([] ++ layerDirs exportDir base ++ layerDirs exportDir profile)
    ([] ++ entriesFiles e exportDir base ++ entriesFiles e exportDir profile) hu he hsound.2.2
    hfiles.2.2 (by simpa using hcompat)
  rw [overlay_nil] at h1
  simp only [List.nil_append] at h1 h2 h3
  unfold Service.render
  simp only [hcore, hprofile, hcustom, hexport, h1, h2, h3]

/-- Layer precedence of `Service.render` when the roots are clean absolute paths.  The
three layers each hold at least one file, all their entries are readable with valid names and
every template renders without error (`entriesSound`), and no path collides
file-against-directory (`Compatible`).  Then `render` succeeds; afterwards every path that one
of the three layers produces is a file and holds the output of the last layer, in the order
base, profile, custom, that produces it (`layeredOutput`); every other path is a directory if it
is a mirrored directory or above one, and is what it was before otherwise.  So the files
produced are exactly the union of the three layers' destination paths. -/
theorem render_layer_precedence (s : Service) (e : Renderer) (base profile custom : SrcEntries)
    (fs : FS) (coreDir profileDir customDir exportDir : List String)
    (hcore : s.CoreRoot = absPath coreDir) (hprofile : s.ProfileRoot = absPath profileDir)
    (hcustom : s.CustomRoot = absPath customDir) (hexport : s.ExportRoot = absPath exportDir)
    (hnames : ∀ m ∈ coreDir ++ profileDir ++ customDir ++ exportDir, validName m)
    (hsound : entriesSound e base = true ∧ entriesSound e profile = true ∧
      entriesSound e custom = true)
    (hfiles : 1 ≤ fileEntries base ∧ 1 ≤ fileEntries profile ∧ 1 ≤ fileEntries custom)
    (hcompat : Compatible
      (layerDirs exportDir base ++ layerDirs exportDir profile ++ layerDirs exportDir custom)
      (entriesFiles e exportDir base ++ entriesFiles e exportDir profile ++
        entriesFiles e exportDir custom) fs) :
    (s.render e ⟨SrcNode.dir base, SrcNode.dir profile, SrcNode.dir custom⟩ fs).1 = none ∧
    (∀ q, q ∈ (entriesFiles e exportDir base ++ entriesFiles e exportDir profile ++
        entriesFiles e exportDir custom).map Prod.fst →
      ∃ c, layeredOutput (entriesFiles e exportDir base) (entriesFiles e exportDir profile)
          (entriesFiles e exportDir custom) q = some c ∧
        (s.render e ⟨SrcNode.dir base, SrcNode.dir profile, SrcNode.dir custom⟩ fs).2 q =
          some (Entry.file c)) ∧
    (∀ q, q ∉ (entriesFiles e exportDir base ++ entriesFiles e exportDir profile ++
        entriesFiles e exportDir custom).map Prod.fst →
      (s.render e ⟨SrcNode.dir base, SrcNode.dir profile, SrcNode.dir custom⟩ fs).2 q =
        if (layerDirs exportDir base ++ layerDirs exportDir profile ++
            layerDirs exportDir custom).any (fun d => q.isPrefixOf d)
        then some Entry.dir else fs q) := by
  rw [render_overlay s e base profile custom fs coreDir profileDir customDir exportDir hcore
    hprofile hcustom hexport hnames hsound hfiles hcompat]
  have hlay : ∀ q, layeredOutput (entriesFiles e exportDir base)
      (entriesFiles e exportDir profile) (entriesFiles e exportDir custom) q =
      lastOutput (entriesFiles e exportDir base ++ entriesFiles e exportDir profile ++
        entriesFiles e exportDir custom) q := by
    intro q
    unfold layeredOutput
    rw [lastOutput_append, lastOutput_append]
  refine ⟨rfl, ?_, ?_⟩
  · intro q hq
    rcases hl : lastOutput (entriesFiles e exportDir base ++ entriesFiles e exportDir profile ++
        entriesFiles e exportDir custom) q with _ | c
    · exact absurd hq ((lastOutput_eq_none_iff _ q).1 hl)
    · refine ⟨c, by rw [hlay, hl], ?_⟩
      simp only [overlay, hl]
  · intro q hq
    have hl := (lastOutput_eq_none_iff _ q).2 hq
    simp only [overlay, hl]

/-- Layer precedence at the instance of the specification, with the default roots: base
`{a, b}`, profile `{b}`, custom `{c}` give `{a, b, c}` with `b` from the profile layer. -/
theorem render_layer_precedence_witness :
    (defaultService.render bracketRenderer exampleLayers FS.empty).1 = none ∧
    (defaultService.render bracketRenderer exampleLayers FS.empty).2 ["config", "kamailio", "a"] =
      some (Entry.file "a of base") ∧
    (defaultService.render bracketRenderer exampleLayers FS.empty).2 ["config", "kamailio", "b"] =
      some (Entry.file "b of profile") ∧
    (defaultService.render bracketRenderer exampleLayers FS.empty).2 ["config", "kamailio", "c"] =
      some (Entry.file "c of custom") ∧
    (defaultService.render bracketRenderer exampleLayers FS.empty).2 ["config", "kamailio"] =
      some Entry.dir ∧
    (defaultService.render bracketRenderer exampleLayers FS.empty).2 ["config", "kamailio", "d"] =
      none := by
  have h := render_layer_precedence defaultService bracketRenderer exampleBase exampleProfile
    exampleCustom FS.empty ["core"] ["profile"] ["custom"] ["config", "kamailio"]
    (by decide) (by decide) (by decide) (by decide) (by decide) (by decide) (by decide)
    (by decide)
  refine ⟨h.1, ?_, ?_, ?_, ?_, ?_⟩
  · obtain ⟨c, hc, hF⟩ := h.2.1 ["config", "kamailio", "a"] (by decide)
    have : c = "a of base" := Option.some.inj (hc.symm.trans (by decide))
    subst this
    exact hF
  · obtain ⟨c, hc, hF⟩ := h.2.1 ["config", "kamailio", "b"] (by decide)
    have : c = "b of profile" := Option.some.inj (hc.symm.trans (by decide))
    subst this
    exact hF
  · obtain ⟨c, hc, hF⟩ := h.2.1 ["config", "kamailio", "c"] (by decide)
    have : c = "c of custom" := Option.some.inj (hc.symm.trans (by decide))
    subst this
    exact hF
  · exact (h.2.2 _ (by decide)).trans (by decide)
  · exact (h.2.2 _ (by decide)).trans (by decide)

/-! ## A name that is only the template suffix -/

/-- A file named exactly `.tmpl` cannot be rendered: its destination without the suffix is the
destination directory itself, which `os.Create` refuses. -/
theorem renderDirectory_bare_tmpl :
    outFileOf "/core" "/config/kamailio" "/core/.tmpl" = "/config/kamailio/" ∧
    (renderDirectory bracketRenderer "/core" "/config/kamailio" bareTmpl FS.empty).1 =
      some (Err.wrap EISDIR "failed to open file for writing: /config/kamailio/") := by
  constructor <;> decide

/-! ## A source root that the walk cleans -/

/-- Claim C1 fails on the code: with `CUSTOM_DIR=./custom` and the layers base `{a, b}`,
profile `{b}`, custom `{c}`, `render` succeeds and leaves `c` at `custom/c` under the export
root, not at `c`: the walk reports the file as `custom/c`, which does not start with the
root `./custom`, so nothing is trimmed from it. -/
theorem render_dot_custom_root :
    pathJoin "./custom" "c" = "custom/c" ∧
    trimPrefix "custom/c" "./custom" = "custom/c" ∧
    (dotCustomService.render bracketRenderer exampleLayers FS.empty).1 = none ∧
    (dotCustomService.render bracketRenderer exampleLayers FS.empty).2
      ["config", "kamailio", "a"] = some (Entry.file "a of base") ∧
    (dotCustomService.render bracketRenderer exampleLayers FS.empty).2
      ["config", "kamailio", "b"] = some (Entry.file "b of profile") ∧
    (dotCustomService.render bracketRenderer exampleLayers FS.empty).2
      ["config", "kamailio", "c"] = none ∧
    (dotCustomService.render bracketRenderer exampleLayers FS.empty).2
      ["config", "kamailio", "custom", "c"] = some (Entry.file "c of custom") := by
  refine ⟨by decide, by decide, by decide, by decide, by decide, by decide, by decide⟩

/-- Claim C2 fails on the code: `renderDirectory` on the root `./profile`, which holds the file
`a.cfg` and the template `x.conf.tmpl`, succeeds and writes them to `profile/a.cfg` and
`profile/x.conf` under the export root; the export root joined with the relative paths,
`a.cfg` and `x.conf`, is left empty. -/
theorem renderDirectory_dot_profile_root :
    (renderDirectory bracketRenderer "./profile" "/config/kamailio" profileTree FS.empty).1 =
      none ∧
    (renderDirectory bracketRenderer "./profile" "/config/kamailio" profileTree FS.empty).2
      ["config", "kamailio", "a.cfg"] = none ∧
    (renderDirectory bracketRenderer "./profile" "/config/kamailio" profileTree FS.empty).2
      ["config", "kamailio", "x.conf"] = none ∧
    (renderDirectory bracketRenderer "./profile" "/config/kamailio" profileTree FS.empty).2
      ["config", "kamailio", "profile", "a.cfg"] = some (Entry.file "alias") ∧
    (renderDirectory bracketRenderer "./profile" "/config/kamailio" profileTree FS.empty).2
      ["config", "kamailio", "profile", "x.conf"] = some (Entry.file "<listen>") := by
  refine ⟨by decide, by decide, by decide, by decide, by decide⟩

/-! ## The file count and the layer pipeline -/

theorem renderVisit_dir_count (e : Renderer) (sr er fn : String) (st st1 : FS × Nat)
    (h : renderVisit e sr er fn Visit.dir st = (none, st1)) : st1.2 = st.2 := by
  unfold renderVisit at h
  simp only at h
  split at h
  · simp at h
  · simp only [Prod.mk.injEq, true_and] at h
    rw [← h]

theorem renderVisit_file_count (e : Renderer) (sr er fn : String) (o : Except Err String)
    (st st1 : FS × Nat)
    (h : renderVisit e sr er fn (Visit.file o) st = (none, st1)) :
    st1.2 = st.2 + 1 ∧ ∃ data, o = Except.ok data := by
  unfold renderVisit at h
  simp only at h
  split at h
  · simp at h
  · split at h
    · simp at h
    · split at h
      · simp at h
      · split at h
        · simp only [Prod.mk.injEq, true_and] at h
          rw [← h]; exact ⟨rfl, _, rfl⟩
        · simp at h

theorem renderVisit_failed (e : Renderer) (sr er fn : String) (err : Err)
    (st st1 : FS × Nat) : renderVisit e sr er fn (Visit.failed err) st ≠ (none, st1) := by
  simp [renderVisit]

mutual
theorem walk_count (e : Renderer) (sr er : String) :
    ∀ (node : SrcNode) (fn : String) (st st1 : FS × Nat),
      walk (renderVisit e sr er) fn node st = (none, st1) → st1.2 = st.2 + fileNodes node
  | SrcNode.file data, fn, st, st1, h => by
    simp only [walk] at h
    simpa [fileNodes] using (renderVisit_file_count e sr er fn _ st st1 h).1
  | SrcNode.unreadable err, fn, st, st1, h => by
    simp only [walk] at h
    obtain ⟨_, d, hd⟩ := renderVisit_file_count e sr er fn _ st st1 h
    cases hd
  | SrcNode.inaccessible err, fn, st, st1, h => by
    simp only [walk] at h
    exact absurd h (renderVisit_failed e sr er fn err st st1)
  | SrcNode.dir entries, fn, st, st1, h => by
    simp only [walk] at h
    rcases hv : renderVisit e sr er fn Visit.dir st with ⟨_ | err, st2⟩
    · rw [hv] at h
      simp only at h
      have h1 := renderVisit_dir_count e sr er fn st st2 hv
      have h2 := walkEntries_count e sr er entries fn st2 st1 h
      simp [fileNodes, h2, h1]
    · rw [hv] at h
      simp at h
theorem walkEntries_count (e : Renderer) (sr er : String) :
    ∀ (entries : SrcEntries) (dirFn : String) (st st1 : FS × Nat),
      walkEntries (renderVisit e sr er) dirFn entries st = (none, st1) →
      st1.2 = st.2 + fileEntries entries
  | SrcEntries.nil, dirFn, st, st1, h => by
    simp only [walkEntries, Prod.mk.injEq, true_and] at h
    simp [fileEntries, h]
  | SrcEntries.cons name node rest, dirFn, st, st1, h => by
    simp only [walkEntries] at h
    rcases hv : walk (renderVisit e sr er) (pathJoin dirFn name) node st with ⟨_ | err, st2⟩
    · rw [hv] at h
      simp only at h
      have h1 := walk_count e sr er node _ st st2 hv
      have h2 := walkEntries_count e sr er rest dirFn st2 st1 h
      simp [fileEntries, h2, h1]; omega
    · rw [hv] at h
      simp at h
end

/-- Claim C3 (empty-layer rule of `renderDirectory`).  When the walk of the source tree
completes without an error, the number of files produced is the number of regular files in the
tree; `renderDirectory` returns the error "no files processed" exactly when that number is
zero, and returns nil when it is at least one. -/
theorem renderDirectory_empty_layer (e : Renderer) (sourceRoot exportRoot : String)
    (src : SrcNode) (fs : FS) (st : FS × Nat)
    (hwalk : walk (renderVisit e sourceRoot exportRoot) sourceRoot src (fs, 0) = (none, st)) :
    st.2 = fileNodes src ∧
    (renderDirectory e sourceRoot exportRoot src fs =
        (some (Err.new "no files processed"), st.1) ↔ st.2 = 0) ∧
    (1 ≤ st.2 → renderDirectory e sourceRoot exportRoot src fs = (none, st.1)) := by
  have hc := walk_count e sourceRoot exportRoot src sourceRoot (fs, 0) st hwalk
  simp only [Nat.zero_add] at hc
  refine ⟨hc, ?_, ?_⟩
  · unfold renderDirectory
    rw [hwalk]
    by_cases h0 : st.2 < 1
    · simp [h0]; omega
    · simp [h0]; omega
  · intro h1
    unfold renderDirectory
    rw [hwalk]
    simp; omega

/-- Claim C3 at a source tree that holds one empty directory and no file. -/
theorem renderDirectory_empty_layer_witness :
    (walk (renderVisit bracketRenderer "/core" "/config/kamailio") "/core" onlyDirs
      (FS.empty, 0)).1 = none ∧
    (renderDirectory bracketRenderer "/core" "/config/kamailio" onlyDirs FS.empty).1 =
      some (Err.new "no files processed") :=
  ⟨by decide,
    congrArg Prod.fst (((renderDirectory_empty_layer bracketRenderer "/core" "/config/kamailio"
      onlyDirs FS.empty
      (walk (renderVisit bracketRenderer "/core" "/config/kamailio") "/core" onlyDirs
        (FS.empty, 0)).2 (Prod.ext (by decide) rfl)).2.1).2 (by decide))⟩

/-- Claim C6 (fail-fast of `Service.render`).  The layers are rendered in the order core,
profile, custom.  When `renderDirectory` fails for a layer, `render` returns that error wrapped,
whatever the later layers are, and the file system is the one the failing call left; `render`
returns nil exactly when all three calls do. -/
theorem render_fail_fast (s : Service) (e : Renderer) (l : Layers) (fs : FS) :
    (∀ err fs1, renderDirectory e s.CoreRoot s.ExportRoot l.core fs = (some err, fs1) →
      ∀ profile custom : SrcNode,
        s.render e ⟨l.core, profile, custom⟩ fs =
          (some (Err.wrap err "failed to render core"), fs1)) ∧
    (∀ fs1 err fs2, renderDirectory e s.CoreRoot s.ExportRoot l.core fs = (none, fs1) →
      renderDirectory e s.ProfileRoot s.ExportRoot l.profile fs1 = (some err, fs2) →
      ∀ custom : SrcNode,
        s.render e ⟨l.core, l.profile, custom⟩ fs =
          (some (Err.wrap err "failed to render profile"), fs2)) ∧
    (∀ fs1 fs2 err fs3, renderDirectory e s.CoreRoot s.ExportRoot l.core fs = (none, fs1) →
      renderDirectory e s.ProfileRoot s.ExportRoot l.profile fs1 = (none, fs2) →
      renderDirectory e s.CustomRoot s.ExportRoot l.custom fs2 = (some err, fs3) →
      s.render e l fs = (some (Err.wrap err "failed to render initial configuration"), fs3)) ∧
    ((s.render e l fs).1 = none ↔
      ∃ fs1 fs2 fs3, renderDirectory e s.CoreRoot s.ExportRoot l.core fs = (none, fs1) ∧
        renderDirectory e s.ProfileRoot s.ExportRoot l.profile fs1 = (none, fs2) ∧
        renderDirectory e s.CustomRoot s.ExportRoot l.custom fs2 = (none, fs3) ∧
        s.render e l fs = (none, fs3)) := by
  refine ⟨?_, ?_, ?_, ?_⟩
  · intro err fs1 h profile custom
    simp [Service.render, h]
  · intro fs1 err fs2 h1 h2 custom
    simp [Service.render, h1, h2]
  · intro fs1 fs2 err fs3 h1 h2 h3
    simp [Service.render, h1, h2, h3]
  · rcases h1 : renderDirectory e s.CoreRoot s.ExportRoot l.core fs with ⟨_ | e1, fs1⟩
    · rcases h2 : renderDirectory e s.ProfileRoot s.ExportRoot l.profile fs1 with ⟨_ | e2, fs2⟩
      · rcases h3 : renderDirectory e s.CustomRoot s.ExportRoot l.custom fs2 with ⟨_ | e3, fs3⟩
        · simp [Service.render, h1, h2, h3]
        · simp [Service.render, h1, h2, h3]
      · simp [Service.render, h1, h2]
    · simp [Service.render, h1]

/-! ## The watch loop -/

theorem watchLoop_render_after_recv {W : Type} (s : Service) (c : Collab W)
    (notifs : List (Option Err)) :
    ∀ (w : W) (i : Nat) (b : Bool),
      (s.watchLoop c notifs w).1[i]? = some (Event.render b) →
      ∃ j, i = j + 1 ∧ (s.watchLoop c notifs w).1[j]? = some (Event.recv none) := by
  induction notifs with
  | nil => intro w i b h; simp [Service.watchLoop] at h
  | cons n rest ih =>
    intro w i b
    cases n with
    | some err =>
      intro h
      rcases i with _ | i <;> simp [Service.watchLoop] at h
    | none =>
      rcases hr : c.render s w with ⟨_ | e, w1⟩
      · rcases hl : s.reload c w1 with ⟨_ | e2, w2⟩
        · simp only [Service.watchLoop, hr, hl]
          intro h
          rcases i with _ | _ | _ | i
          · simp at h
          · exact ⟨0, rfl, by simp⟩
          · simp at h
          · simp only [List.getElem?_cons_succ] at h
            obtain ⟨j, rfl, hj⟩ := ih w2 i b h
            exact ⟨j + 3, rfl, by simpa using hj⟩
        · simp only [Service.watchLoop, hr, hl]
          intro h
          rcases i with _ | _ | _ | i
          · simp at h
          · exact ⟨0, rfl, by simp⟩
          · simp at h
          · simp at h
      · simp only [Service.watchLoop, hr]
        intro h
        rcases i with _ | _ | i
        · simp at h
        · exact ⟨0, rfl, by simp⟩
        · simp at h

theorem watchLoop_reload_after_render {W : Type} (s : Service) (c : Collab W)
    (notifs : List (Option Err)) :
    ∀ (w : W) (i : Nat) (b : Bool),
      (s.watchLoop c notifs w).1[i]? = some (Event.reload b) →
      ∃ j, i = j + 1 ∧ (s.watchLoop c notifs w).1[j]? = some (Event.render true) := by
  induction notifs with
  | nil => intro w i b h; simp [Service.watchLoop] at h
  | cons n rest ih =>
    intro w i b
    cases n with
    | some err =>
      intro h
      rcases i with _ | i <;> simp [Service.watchLoop] at h
    | none =>
      rcases hr : c.render s w with ⟨_ | e, w1⟩
      · rcases hl : s.reload c w1 with ⟨_ | e2, w2⟩
        · simp only [Service.watchLoop, hr, hl]
          intro h
          rcases i with _ | _ | _ | i
          · simp at h
          · simp at h
          · exact ⟨1, rfl, by simp⟩
          · simp only [List.getElem?_cons_succ] at h
            obtain ⟨j, rfl, hj⟩ := ih w2 i b h
            exact ⟨j + 3, rfl, by simpa using hj⟩
        · simp only [Service.watchLoop, hr, hl]
          intro h
          rcases i with _ | _ | _ | i
          · simp at h
          · simp at h
          · exact ⟨1, rfl, by simp⟩
          · simp at h
      · simp only [Service.watchLoop, hr]
        intro h
        rcases i with _ | _ | i
        · simp at h
        · simp at h
        · simp at h

theorem watchLoop_recv_after_reload {W : Type} (s : Service) (c : Collab W)
    (notifs : List (Option Err)) :
    ∀ (w : W) (i : Nat) (n : Option Err),
      (s.watchLoop c notifs w).1[i + 1]? = some (Event.recv n) →
      (s.watchLoop c notifs w).1[i]? = some (Event.reload true) := by
  induction notifs with
  | nil => intro w i b h; simp [Service.watchLoop] at h
  | cons n rest ih =>
    intro w i b
    cases n with
    | some err =>
      intro h
      simp [Service.watchLoop] at h
    | none =>
      rcases hr : c.render s w with ⟨_ | e, w1⟩
      · rcases hl : s.reload c w1 with ⟨_ | e2, w2⟩
        · simp only [Service.watchLoop, hr, hl]
          intro h
          rcases i with _ | _ | _ | i
          · simp at h
          · simp at h
          · simp
          · simp only [List.getElem?_cons_succ] at h
            simpa using ih w2 i b h
        · simp only [Service.watchLoop, hr, hl]
          intro h
          rcases i with _ | _ | i <;> simp at h
      · simp only [Service.watchLoop, hr]
        intro h
        rcases i with _ | i <;> simp at h

theorem watchLoop_received {W : Type} (s : Service) (c : Collab W)
    (notifs : List (Option Err)) :
    ∀ w : W, received (s.watchLoop c notifs w).1 <+: notifs := by
  induction notifs with
  | nil => intro w; simp [Service.watchLoop, received]
  | cons n rest ih =>
    intro w
    cases n with
    | some err =>
      simp only [Service.watchLoop, received]
      exact List.prefix_append [some err] rest
    | none =>
      rcases hr : c.render s w with ⟨_ | e, w1⟩
      · rcases hl : s.reload c w1 with ⟨_ | e2, w2⟩
        · simp only [Service.watchLoop, hr, hl, received]
          exact (List.prefix_cons_inj none).2 (ih w2)
        · simp only [Service.watchLoop, hr, hl, received]
          exact List.prefix_append [none] rest
      · simp only [Service.watchLoop, hr, received]
        exact List.prefix_append [none] rest

/-- Claim C4 (watch loop of `Service.Run`).  After a successful first render, on every sequence
of notifications: the events of `Run` are the first render, `FirstRenderComplete` and the
events of the loop; in the loop every re-render comes right after the receipt of an error-free
notification, every receipt but the first comes right after a successful reload, every
reload comes right after a successful re-render, and the values received are, in order, the
first of the values delivered.  On one error-free notification, with render
and reload succeeding, `Run` re-renders once, reloads once, and is then blocked on the channel
without having returned. -/
theorem run_watch_loop {W : Type} (s : Service) (c : Collab W) (notifs : List (Option Err))
    (w w1 : W) (hfirst : c.render s w = (none, w1)) :
    (s.Run c notifs w).1 =
      Event.render true :: Event.firstRenderComplete ::
        ((s.watchLoop c notifs w1).1 ++ deferred (s.Run c notifs w).2.1) ∧
    (∀ (i : Nat) (b : Bool), (s.watchLoop c notifs w1).1[i]? = some (Event.render b) →
      ∃ j, i = j + 1 ∧ (s.watchLoop c notifs w1).1[j]? = some (Event.recv none)) ∧
    (∀ (i : Nat) (n : Option Err), (s.watchLoop c notifs w1).1[i + 1]? = some (Event.recv n) →
      (s.watchLoop c notifs w1).1[i]? = some (Event.reload true)) ∧
    (∀ (i : Nat) (b : Bool), (s.watchLoop c notifs w1).1[i]? = some (Event.reload b) →
      ∃ j, i = j + 1 ∧ (s.watchLoop c notifs w1).1[j]? = some (Event.render true)) ∧
    received (s.watchLoop c notifs w1).1 <+: notifs ∧
    (∀ w2 w3 : W, c.render s w1 = (none, w2) → s.reload c w2 = (none, w3) →
      s.Run c [none] w =
        ([Event.render true, Event.firstRenderComplete, Event.recv none, Event.render true,
          Event.reload true], RunResult.blocked, w3)) := by
  refine ⟨?_, watchLoop_render_after_recv s c notifs w1, watchLoop_recv_after_reload s c notifs w1,
    watchLoop_reload_after_render s c notifs w1, watchLoop_received s c notifs w1, ?_⟩
  · simp [Service.Run, hfirst]
  · intro w2 w3 h2 h3
    simp [Service.Run, hfirst, Service.watchLoop, h2, h3, deferred]

/-- Claim C4 at collaborators that always succeed and one notification. -/
theorem run_watch_loop_witness :
    countingCollab.render defaultService 0 = (none, 1) ∧
    defaultService.Run countingCollab [none] 0 =
      ([Event.render true, Event.firstRenderComplete, Event.recv none, Event.render true,
        Event.reload true], RunResult.blocked, 102) :=
  ⟨rfl, (run_watch_loop defaultService countingCollab [none] 0 1 rfl).2.2.2.2.2 2 102 rfl rfl⟩

/-! ## The supervisor -/

theorem mainLoop_of_not_lt (runs : List RunOutcome) (sd n : Nat) (h : ¬ sd < maxShortDeaths) :
    mainLoop runs sd n = MainResult.exit n 1 := by
  cases runs <;> simp [mainLoop, h]

theorem foldl_countRun_snoc (l : List RunOutcome) (r : RunOutcome) (sd : Nat) :
    (l ++ [r]).foldl countRun sd = countRun (l.foldl countRun sd) r := by
  simp [List.foldl_append]

theorem shortStreak_eq_foldl (l : List RunOutcome) : l.foldl countRun 0 = shortStreak l := by
  induction l using List.reverseRecOn with
  | nil => rfl
  | append_singleton l r ih =>
    rw [foldl_countRun_snoc, ih]
    unfold shortStreak countRun
    by_cases h : r.elapsed < minRuntime <;> simp [List.takeWhile, h]

theorem mainLoop_exit_iff (runs : List RunOutcome) :
    ∀ (sd n k : Nat), sd < maxShortDeaths →
      (mainLoop runs sd n = MainResult.exit k 1 ↔
        ∃ j, k = n + j ∧ j ≤ runs.length ∧ (runs.take j).foldl countRun sd = maxShortDeaths ∧
          ∀ i, i < j → (runs.take i).foldl countRun sd < maxShortDeaths) := by
  induction runs with
  | nil =>
    intro sd n k h
    simp only [mainLoop, h, if_true]
    constructor
    · intro hh; cases hh
    · rintro ⟨j, -, hj, h10, -⟩
      simp at hj; subst hj
      simp at h10; omega
  | cons r rest ih =>
    intro sd n k h
    simp only [mainLoop, h, if_true]
    by_cases h' : countRun sd r < maxShortDeaths
    · rw [ih _ _ _ h']
      constructor
      · rintro ⟨j, hk, hj, h10, hlt⟩
        refine ⟨j + 1, by omega, by simp; omega, by simpa using h10, ?_⟩
        intro i hi
        cases i with
        | zero => simpa using h
        | succ i => simpa using hlt i (by omega)
      · rintro ⟨j, hk, hj, h10, hlt⟩
        cases j with
        | zero => simp at h10; omega
        | succ j =>
          refine ⟨j, by omega, by simpa using hj, by simpa using h10, ?_⟩
          intro i hi
          simpa using hlt (i + 1) (by omega)
    · rw [mainLoop_of_not_lt _ _ _ h']
      have hle : countRun sd r ≤ maxShortDeaths := by
        unfold countRun; split <;> omega
      have heq : countRun sd r = maxShortDeaths := by omega
      constructor
      · intro hh
        injection hh with hk
        refine ⟨1, by omega, by simp, by simpa using heq, ?_⟩
        intro i hi
        have : i = 0 := by omega
        subst this; simpa using h
      · rintro ⟨j, hk, hj, h10, hlt⟩
        rcases j with _ | _ | j
        · simp at h10; omega
        · simp [hk]
        · have := hlt 1 (by omega)
          simp at this; omega

/-- Claim C5 (crash-loop supervisor of `main`).  The counter grows by one after a run shorter
than `minRuntime` and is reset to zero after any other run, whatever error the run returned.
The process exits with status 1 after exactly `k` runs if and only if run `k` is the first to
complete ten consecutive short runs.  Eleven short runs: exit after the tenth and not before.
The same with a fifth run of at least `minRuntime`: still running after run ten, with counter
five, and after run eleven. -/
theorem supervisor_crash_loop :
    (∀ (sd : Nat) (r : RunOutcome), r.elapsed < minRuntime → countRun sd r = sd + 1) ∧
    (∀ (sd : Nat) (r : RunOutcome), minRuntime ≤ r.elapsed → countRun sd r = 0) ∧
    (∀ (runs : List RunOutcome) (k : Nat),
      mainLoop runs 0 0 = MainResult.exit k 1 ↔
        (k ≤ runs.length ∧ shortStreak (runs.take k) = 10 ∧
          ∀ j, j < k → shortStreak (runs.take j) < 10)) ∧
    (∀ runs : List RunOutcome, runs.length = 11 → (∀ r ∈ runs, r.elapsed < minRuntime) →
      mainLoop runs 0 0 = MainResult.exit 10 1 ∧
      ∀ k, k < 10 → mainLoop (runs.take k) 0 0 = MainResult.running k) ∧
    (∀ (runs : List RunOutcome) (long : RunOutcome), runs.length = 11 →
      (∀ r ∈ runs, r.elapsed < minRuntime) → minRuntime ≤ long.elapsed →
      mainLoop ((runs.set 4 long).take 10) 0 0 = MainResult.running 5 ∧
      mainLoop (runs.set 4 long) 0 0 = MainResult.running 6) := by
  refine ⟨?_, ?_, ?_, ?_, ?_⟩
  · intro sd r h; simp [countRun, h]
  · intro sd r h; simp [countRun, not_lt.mpr h]
  · intro runs k
    rw [mainLoop_exit_iff runs 0 0 k (by decide)]
    simp only [shortStreak_eq_foldl, maxShortDeaths]
    constructor
    · rintro ⟨j, hk, hj, h10, hlt⟩
      have : k = j := by omega
      subst this
      exact ⟨hj, h10, hlt⟩
    · rintro ⟨hj, h10, hlt⟩
      exact ⟨k, by omega, hj, h10, hlt⟩
  · intro runs hlen hshort
    match runs, hlen with
    | [r0, r1, r2, r3, r4, r5, r6, r7, r8, r9, r10], _ =>
      simp only [List.mem_cons, List.mem_singleton, forall_eq_or_imp, forall_eq,
        List.not_mem_nil, false_implies, implies_true, and_true] at hshort
      obtain ⟨h0, h1, h2, h3, h4, h5, h6, h7, h8, h9, h10⟩ := hshort
      refine ⟨by simp [mainLoop, countRun, maxShortDeaths, *], ?_⟩
      intro k hk
      interval_cases k <;> simp [mainLoop, countRun, maxShortDeaths, *]
  · intro runs long hlen hshort hlong
    match runs, hlen with
    | [r0, r1, r2, r3, r4, r5, r6, r7, r8, r9, r10], _ =>
      simp only [List.mem_cons, List.mem_singleton, forall_eq_or_imp, forall_eq,
        List.not_mem_nil, false_implies, implies_true, and_true] at hshort
      obtain ⟨h0, h1, h2, h3, h4, h5, h6, h7, h8, h9, h10⟩ := hshort
      have hl : ¬ long.elapsed < minRuntime := not_lt.mpr hlong
      constructor <;> simp [mainLoop, countRun, maxShortDeaths, List.set, *]

/-! ## The extractor -/

theorem hasPrefix_ne_empty (s pre : String) (h : hasPrefix s pre = true) (hp : pre ≠ "") :
    s ≠ "" := by
  rintro rfl
  obtain ⟨pd⟩ := pre
  cases pd with
  | nil => exact hp rfl
  | cons c cs => simp [hasPrefix, List.isPrefixOf] at h

/-- Claim C8 (download failure of `extractSource`).  For a source that starts with `http`
and a destination that is set, when the response has a status code outside 200..299 or a
content length below one, `downloadSource` returns an error and `extractSource` returns that
error wrapped as "failed to download source"; the file system is unchanged. -/
theorem extractSource_download_failure (env : Env) (source customRoot : String) (fs : FS)
    (resp : Response) (hurl : hasPrefix source "http" = true) (hroot : customRoot ≠ "")
    (hreq : env.newRequestErr source = none)
    (hresp : env.roundTrip (downloadRequest env source) = Except.ok resp)
    (hbad : resp.StatusCode < 200 ∨ resp.StatusCode > 299 ∨ resp.ContentLength < 1) :
    ∃ err, downloadSource env source fs = (("", some err), fs) ∧
      extractSource env source customRoot fs =
        (some (Err.wrap err "failed to download source"), fs) := by
  have hne : source ≠ "" := hasPrefix_ne_empty source "http" hurl (by decide)
  by_cases hstatus : resp.StatusCode < 200 ∨ resp.StatusCode > 299
  · refine ⟨Err.new ("request failed: " ++ resp.Status), ?_, ?_⟩
    · simp [downloadSource, hreq, hresp, hstatus]
    · simp [extractSource, hne, hroot, hurl, downloadSource, hreq, hresp, hstatus]
  · have hlen : resp.ContentLength < 1 := by
      rcases hbad with h | h | h
      · exact absurd (Or.inl h) hstatus
      · exact absurd (Or.inr h) hstatus
      · exact h
    refine ⟨Err.new "empty response", ?_, ?_⟩
    · simp [downloadSource, hreq, hresp, hstatus, hlen]
    · simp [extractSource, hne, hroot, hurl, downloadSource, hreq, hresp, hstatus, hlen]

/-- Claim C8 at a server that answers 404. -/
theorem extractSource_download_failure_witness :
    ∃ err, downloadSource envNotFound "http://example.org/custom.zip" FS.empty =
        (("", some err), FS.empty) ∧
      extractSource envNotFound "http://example.org/custom.zip" "/custom" FS.empty =
        (some (Err.wrap err "failed to download source"), FS.empty) :=
  extractSource_download_failure envNotFound "http://example.org/custom.zip" "/custom" FS.empty
    ⟨404, "404 Not Found", 9, "not found", none⟩ (by decide) (by decide) rfl rfl
    (Or.inr (Or.inl (by decide)))

/-- Claim C9 fails as stated: with a username and an authorization header both configured, the
request carries two `Authorization` values, not the basic-auth credentials alone. -/
theorem downloadRequest_both_credentials :
    (downloadRequest envBoth "http://example.org/custom.zip").header "Authorization" =
        ["Basic alice:secret", "Bearer token"] ∧
    (downloadRequest envBoth "http://example.org/custom.zip").header "Authorization" ≠
        ["Basic alice:secret"] := by
  constructor <;> decide

/-- Claim C9, amended.  The request is a GET of the URL; its `Authorization` values are the
basic-auth credentials if a username is configured, followed by the configured authorization
header if one is configured, whether or not a username is; it has no other header. -/
theorem downloadRequest_credentials (env : Env) (uri : String) :
    (downloadRequest env uri).method = "GET" ∧ (downloadRequest env uri).url = uri ∧
    (downloadRequest env uri).header "Authorization" =
      (if env.getenv "URL_USERNAME" ≠ "" then
          ["Basic " ++ env.base64 (env.getenv "URL_USERNAME" ++ ":" ++ env.getenv "URL_PASSWORD")]
        else []) ++
      (if env.getenv "URL_AUTHORIZATION" ≠ "" then [env.getenv "URL_AUTHORIZATION"] else []) ∧
    (∀ key, key ≠ "Authorization" → (downloadRequest env uri).header key = []) := by
  unfold downloadRequest
  by_cases hu : env.getenv "URL_USERNAME" = "" <;>
    by_cases ha : env.getenv "URL_AUTHORIZATION" = "" <;>
    simp +contextual [hu, ha, Request.SetBasicAuth, Header.set, Header.add]

/-- Claim C10 fails on the code: the file entry `../etc/evil.cfg` of an archive extracted to
`/custom` is written to `/etc/evil.cfg`, which is not under `/custom`. -/
theorem extractSource_escapes_destination :
    pathJoin "/custom" "../etc/evil.cfg" = "/etc/evil.cfg" ∧
    (extractSource envDotDot "/source/custom.zip" "/custom" fsArchive).1 = none ∧
    (extractSource envDotDot "/source/custom.zip" "/custom" fsArchive).2 ["etc", "evil.cfg"] =
      some (Entry.file "evil") ∧
    (extractSource envDotDot "/source/custom.zip" "/custom" fsArchive).2 ["custom", "etc", "evil.cfg"]
      = none ∧
    ¬ (resolve "/custom" <+: resolve (pathJoin "/custom" "../etc/evil.cfg")) := by
  refine ⟨by decide, by decide, by decide, by decide, by decide⟩

end Kamconfig
